import Mathlib

/-!
Verification development for the IPTV backend (`backend/src/index.js`).

The JavaScript source is shallowly embedded: each JS function used by the
verified claims is translated into a Lean definition of the same name.
JS strings are Lean `String`s (lists of unicode scalar values); JS numbers
that are used as integers (timestamps, byte values, status codes) are `Nat`;
JS objects whose keys are dynamic are association lists with JS-object
update semantics (updating an existing key keeps its position, a new key is
appended).  Platform builtins (`String.prototype.trim`, `split`,
`encodeURIComponent`, the WHATWG `URL` constructor, `JSON.parse`) are
modelled explicitly below, each with a comment naming the builtin.
-/

namespace IPTV

/-! ### Characters written via code points (quote, apostrophe, braces) -/

/-- The double-quote character. -/
def quoteChar : Char := Char.ofNat 34

/-- The apostrophe (single-quote) character. -/
def aposChar : Char := Char.ofNat 39

/-- The opening curly-brace character. -/
def lbraceChar : Char := Char.ofNat 123

/-- The closing curly-brace character. -/
def rbraceChar : Char := Char.ofNat 125

/-! ### Models of JS string builtins -/

/-- Model of the whitespace class used by `String.prototype.trim` and the
regex class `\s`, restricted to the ASCII whitespace characters
(space, tab, line feed, carriage return, vertical tab, form feed).
Unicode spaces are not modelled; no claim depends on them. -/
def isJsSpace (c : Char) : Bool :=
  c = ' ' || c = '\t' || c = '\n' || c = '\r' || c = Char.ofNat 11 || c = Char.ofNat 12

/-- Trim `isJsSpace` characters from both ends of a character list. -/
def trimChars (l : List Char) : List Char :=
  ((l.dropWhile isJsSpace).reverse.dropWhile isJsSpace).reverse

/-- Model of `String.prototype.trim`. -/
def jsTrim (s : String) : String := String.mk (trimChars s.data)

/-- Model of `String.prototype.startsWith`. -/
def jsStartsWith (s pre : String) : Bool := pre.data.isPrefixOf s.data

/-- Model of `String.prototype.includes` (case-sensitive substring test). -/
def containsSub (s pat : String) : Bool := decide (List.IsInfix pat.data s.data)

/-- Split a character list at every occurrence of `sep`.
Model of `String.prototype.split` with a single-character separator. -/
def splitOnChar (sep : Char) : List Char → List (List Char)
  | [] => [[]]
  | c :: rest =>
    if c = sep then [] :: splitOnChar sep rest
    else
      match splitOnChar sep rest with
      | h :: t => (c :: h) :: t
      | [] => [[c]]

/-- Remove one trailing carriage return, if present. -/
def dropTrailingCR (l : List Char) : List Char :=
  if l.getLast? = some '\r' then l.dropLast else l

/-- Model of `body.split(/\r?\n/)`: split at every line feed, then drop a
single carriage return left at the end of each piece. -/
def jsSplitLines (s : String) : List String :=
  (splitOnChar '\n' s.data).map (fun p => String.mk (dropTrailingCR p))

/-- Join pieces with a separator list.  Model of `Array.prototype.join`. -/
def joinWith (sep : List Char) : List (List Char) → List Char
  | [] => []
  | [p] => p
  | p :: q :: rest => p ++ sep ++ joinWith sep (q :: rest)

/-- Model of `lines.join("\n")`. -/
def joinLines (ls : List String) : String :=
  String.mk (joinWith ['\n'] (ls.map String.data))

/-- Model of `parts.join(" ")`. -/
def joinSpace (ls : List String) : String :=
  String.mk (joinWith [' '] (ls.map String.data))

/-- ASCII lower-casing of one character; model of the case folding applied
by a case-insensitive (`/i`) regex on ASCII input. -/
def lowerChar (c : Char) : Char :=
  if 'A' ≤ c ∧ c ≤ 'Z' then Char.ofNat (c.toNat + 32) else c

/-- ASCII upper-casing of one character; model of
`String.prototype.toUpperCase` on ASCII input. -/
def upperChar (c : Char) : Char :=
  if 'a' ≤ c ∧ c ≤ 'z' then Char.ofNat (c.toNat - 32) else c

/-! ### encodeURIComponent / decodeURIComponent -/

/-- Upper-case hexadecimal digit for `n < 16`. -/
def hexDigitChar (n : Nat) : Char :=
  if n < 10 then Char.ofNat (48 + n) else Char.ofNat (55 + n)

/-- The characters `encodeURIComponent` leaves unescaped:
`A–Z a–z 0–9 - _ . ! ~ * ' ( )`. -/
def isUnreservedChar (c : Char) : Bool :=
  c.isAlpha || c.isDigit || c = '-' || c = '_' || c = '.' || c = '!' ||
  c = '~' || c = '*' || c = aposChar || c = '(' || c = ')'

/-- UTF-8 encoding of one unicode scalar value, as byte values. -/
def utf8Bytes (c : Char) : List Nat :=
  let n := c.toNat
  if n < 128 then [n]
  else if n < 2048 then [192 + n / 64, 128 + n % 64]
  else if n < 65536 then [224 + n / 4096, 128 + (n / 64) % 64, 128 + n % 64]
  else [240 + n / 262144, 128 + (n / 4096) % 64, 128 + (n / 64) % 64, 128 + n % 64]

/-- Percent-escape of one byte: `%XY` with upper-case hex digits. -/
def escByte (b : Nat) : List Char :=
  ['%', hexDigitChar (b / 16), hexDigitChar (b % 16)]

/-- `encodeURIComponent` applied to one character. -/
def encChar (c : Char) : List Char :=
  if isUnreservedChar c then [c] else (utf8Bytes c).flatMap escByte

/-- Model of the JS builtin `encodeURIComponent`. -/
def encodeURIComponent (s : String) : String := String.mk (s.data.flatMap encChar)

/-- Token stream produced by percent-unescaping: literal characters and
decoded byte values. -/
inductive PctTok where
  | chr (c : Char)
  | byte (b : Nat)
deriving DecidableEq

/-- Value of one hexadecimal digit character. -/
def hexVal? (c : Char) : Option Nat :=
  if '0' ≤ c ∧ c ≤ '9' then some (c.toNat - 48)
  else if 'A' ≤ c ∧ c ≤ 'F' then some (c.toNat - 55)
  else if 'a' ≤ c ∧ c ≤ 'f' then some (c.toNat - 87)
  else none

/-- First phase of `decodeURIComponent`: replace every `%XY` escape by its
byte value; a malformed escape is an error (`URIError` in JS). -/
def pctTokens : List Char → Option (List PctTok)
  | [] => some []
  | c :: rest =>
    if c = '%' then
      match rest with
      | h1 :: h2 :: rest2 =>
        match hexVal? h1, hexVal? h2 with
        | some a, some b => (pctTokens rest2).map (fun t => PctTok.byte (16 * a + b) :: t)
        | _, _ => none
      | _ => none
    else (pctTokens rest).map (fun t => PctTok.chr c :: t)

/-- Is `b` a UTF-8 continuation byte? -/
def isContByte (b : Nat) : Bool := 128 ≤ b && b < 192

/-- Second phase of `decodeURIComponent`: reassemble UTF-8 byte sequences
into characters, one token at a time.  The state `some (acc, n)` means a
multi-byte sequence is in progress with accumulated code-point bits `acc`
and `n` continuation bytes still expected.  A stray or missing continuation
byte is an error (`URIError` in JS).  Overlong and surrogate sequences are
not rejected (the JS builtin rejects them; they never arise from
`encodeURIComponent` output, which is the only use verified here). -/
def utf8DecodeAux : Option (Nat × Nat) → List PctTok → Option (List Char)
  | none, [] => some []
  | some _, [] => none
  | none, PctTok.chr c :: rest => (utf8DecodeAux none rest).map (fun l => c :: l)
  | none, PctTok.byte b :: rest =>
    if b < 128 then (utf8DecodeAux none rest).map (fun l => Char.ofNat b :: l)
    else if b < 192 then none
    else if b < 224 then utf8DecodeAux (some (b - 192, 1)) rest
    else if b < 240 then utf8DecodeAux (some (b - 224, 2)) rest
    else if b < 248 then utf8DecodeAux (some (b - 240, 3)) rest
    else none
  | some _, PctTok.chr _ :: _ => none
  | some (acc, n), PctTok.byte b :: rest =>
    if isContByte b then
      if n = 1 then
        (utf8DecodeAux none rest).map (fun l => Char.ofNat (acc * 64 + (b - 128)) :: l)
      else utf8DecodeAux (some (acc * 64 + (b - 128), n - 1)) rest
    else none

/-- UTF-8 reassembly of a full token stream. -/
def utf8Decode (toks : List PctTok) : Option (List Char) := utf8DecodeAux none toks

/-- Model of the JS builtin `decodeURIComponent`; `none` models `URIError`. -/
def decodeURIComponent (s : String) : Option String :=
  (pctTokens s.data).bind (fun toks => (utf8Decode toks).map String.mk)

/-- The token list produced by unescaping the encoding of one character. -/
def encToks (c : Char) : List PctTok :=
  if isUnreservedChar c then [PctTok.chr c] else (utf8Bytes c).map PctTok.byte

/-! ### Association lists with JS `Map`/object semantics -/

/-- JS `Map.set` / object property assignment: update an existing key in
place (keeping its position), otherwise append the new entry. -/
def mapSet {β : Type} : List (String × β) → String → β → List (String × β)
  | [], k, v => [(k, v)]
  | p :: rest, k, v => if p.1 = k then (k, v) :: rest else p :: mapSet rest k v

/-- JS `Map.get` / property read. -/
def mapGet {β : Type} (m : List (String × β)) (k : String) : Option β :=
  (m.find? (fun p => p.1 = k)).map (fun p => p.2)

/-- JS `Map.delete`. -/
def mapDelete {β : Type} (m : List (String × β)) (k : String) : List (String × β) :=
  m.filter (fun p => p.1 ≠ k)

/-! ### Metadata cache (`setCache` / `getCache`, index.js lines 497–510) -/

/-- `CACHE_TTL_MS = 60 * 1000` (index.js line 16). -/
def CACHE_TTL_MS : Nat := 60000

/-- One cache entry: `{ value, expires: Date.now() + CACHE_TTL_MS }`. -/
structure CacheEntry (α : Type) where
  value : α
  expires : Nat
deriving DecidableEq

/-- `setCache` (index.js lines 499–501); `now` makes `Date.now()` explicit. -/
def setCache {α : Type} (cache : List (String × CacheEntry α)) (now : Nat)
    (key : String) (v : α) : List (String × CacheEntry α) :=
  mapSet cache key { value := v, expires := now + CACHE_TTL_MS }

/-- `getCache` (index.js lines 502–510); returns the looked-up value and the
cache after the lazy eviction performed by the lookup. -/
def getCache {α : Type} (cache : List (String × CacheEntry α)) (now : Nat)
    (key : String) : Option α × List (String × CacheEntry α) :=
  match mapGet cache key with
  | none => (none, cache)
  | some entry =>
    if now > entry.expires then (none, mapDelete cache key)
    else (some entry.value, cache)

/-! ### MAC validation in `GET /api/channels` (index.js lines 916–928) -/

/-- The regex class `[0-9A-Fa-f]`. -/
def isHexDigit (c : Char) : Bool :=
  c.isDigit || ('A' ≤ c && c ≤ 'F') || ('a' ≤ c && c ≤ 'f')

/-- The regex class `[:-]`. -/
def isMacSep (c : Char) : Bool := c = ':' || c = '-'

/-- First alternative of the MAC regex,
`^([0-9A-Fa-f]{2}[:-]){5}([0-9A-Fa-f]{2})$`: exactly 17 characters in the
fixed shape pair-separator ×5 followed by a final pair. -/
def macRegexAlt1 : List Char → Bool
  | [a, b, s1, c, d, s2, e, f, s3, g, h, s4, i, j, s5, k, l] =>
    isHexDigit a && isHexDigit b && isMacSep s1 &&
    isHexDigit c && isHexDigit d && isMacSep s2 &&
    isHexDigit e && isHexDigit f && isMacSep s3 &&
    isHexDigit g && isHexDigit h && isMacSep s4 &&
    isHexDigit i && isHexDigit j && isMacSep s5 &&
    isHexDigit k && isHexDigit l
  | _ => false

/-- `macRegex.test(macAddress)` for
`/^([0-9A-Fa-f]{2}[:-]){5}([0-9A-Fa-f]{2})$|^([0-9A-Fa-f]{12})$/`. -/
def macRegexTest (s : String) : Bool :=
  macRegexAlt1 s.data || (s.data.length == 12 && s.data.all isHexDigit)

/-- `macAddress.replace(/[:-]/g, '').toUpperCase()` (index.js line 925). -/
def formatMac (s : String) : String :=
  String.mk ((s.data.filter (fun c => !(isMacSep c))).map upperChar)

/-- Outcome of the MAC branch of the `/api/channels` handler. -/
inductive ChannelsMacOutcome where
  | rejected (status : Nat) (errMsg : String)
  | accepted (playlistUrl : String)
deriving DecidableEq

/-- The MAC-validation step of `GET /api/channels` (index.js lines 916–928):
reject with 400 on regex failure, otherwise build the sm4k.688.org
playlist URL from the formatted MAC. -/
def channelsMacStep (mac : String) : ChannelsMacOutcome :=
  if !(macRegexTest mac) then ChannelsMacOutcome.rejected 400 "Invalid MAC address format"
  else
    let f := formatMac mac
    ChannelsMacOutcome.accepted
      ("http://sm4k.688.org/get.php?username=" ++ f ++ "&password=" ++ f ++
        "&type=m3u_plus&output=ts")

/-- A final hex pair ending the input. -/
def hexPairEnd : List Char → Bool
  | [a, b] => isHexDigit a && isHexDigit b
  | _ => false

/-- One hex pair followed by a separator satisfying `sepOk`, then `next`. -/
def hexPairSep (sepOk : Char → Bool) (next : List Char → Bool) : List Char → Bool
  | a :: b :: s :: rest => isHexDigit a && isHexDigit b && sepOk s && next rest
  | _ => false

/-- Six hex pairs with five separators, each drawn from `sepOk`. -/
def sixHexPairs (sepOk : Char → Bool) : List Char → Bool :=
  hexPairSep sepOk (hexPairSep sepOk (hexPairSep sepOk (hexPairSep sepOk
    (hexPairSep sepOk hexPairEnd))))

/-- The acceptance set asserted by claim C7 (spec-side definition, written
from the claim): six hex pairs uniformly separated by colons, the same with
hyphens, or 12 hex digits with no separator. -/
def macSpecClaim (s : String) : Bool :=
  sixHexPairs (fun c => c = ':') s.data || sixHexPairs (fun c => c = '-') s.data ||
  (s.data.length == 12 && s.data.all isHexDigit)

/-- The acceptance set of the amended claim C7 (spec-side definition): six
hex pairs where each of the five separators is independently a colon or a
hyphen, or 12 hex digits with no separator. -/
def macSpecAmended (s : String) : Bool :=
  sixHexPairs isMacSep s.data || (s.data.length == 12 && s.data.all isHexDigit)

/-! ### Manifest classification in `GET /api/stream` (index.js 822–825, 1009–1026) -/

/-- `isManifest` (index.js lines 822–825). -/
def isManifest (contentType : String) : Bool :=
  containsSub contentType "application/vnd.apple.mpegurl" ||
  containsSub contentType "application/x-mpegURL" ||
  containsSub contentType "application/octet-stream"

/-- How `/api/stream` treats the upstream body after the status check. -/
inductive StreamAction where
  | rewriteManifestResp (contentTypeOut : String)
  | pipeThrough (contentTypeOut : String)
deriving DecidableEq

/-- The content-type classification step of `GET /api/stream`
(index.js lines 1009–1026): manifests are buffered, rewritten and returned
as `application/vnd.apple.mpegurl`; everything else is piped through with
the original content type. -/
def streamClassify (contentType : String) : StreamAction :=
  if isManifest contentType then StreamAction.rewriteManifestResp "application/vnd.apple.mpegurl"
  else StreamAction.pipeThrough contentType

/-! ### `parseAttributes` (index.js lines 413–421)

The regex `/([a-zA-Z0-9\-]+)="([^"]*)"/g` is executed by a left-to-right
scanner.  A match must start at the beginning of a maximal key-character
run (backtracking inside the run cannot produce the required `="` earlier),
the value is everything up to the next double quote, and the global search
resumes after the closing quote.  If an opening `="` has no closing quote
anywhere after it, no further match is possible (every match needs two
quotes and none remain), so the scan stops. -/

/-- The regex class `[a-zA-Z0-9\-]`. -/
def isKeyChar (c : Char) : Bool := c.isAlpha || c.isDigit || c = '-'

/-- Fueled scanner for the attribute regex; fuel = input length suffices
because every step consumes at least one character. -/
def scanAttrs : Nat → List Char → List (String × String)
  | 0, _ => []
  | _, [] => []
  | fuel + 1, c :: rest =>
    if isKeyChar c then
      let keyRun := c :: rest.takeWhile isKeyChar
      let after := rest.dropWhile isKeyChar
      match after with
      | '=' :: q :: rest2 =>
        if q = quoteChar then
          let v := rest2.takeWhile (fun d => d ≠ quoteChar)
          match rest2.dropWhile (fun d => d ≠ quoteChar) with
          | _ :: rest4 => (String.mk keyRun, String.mk v) :: scanAttrs fuel rest4
          | [] => []
        else scanAttrs fuel ('=' :: q :: rest2)
      | _ => scanAttrs fuel after
    else scanAttrs fuel rest

/-- `parseAttributes` (index.js lines 413–421), as the ordered list of
regex matches (later duplicate keys overwrite earlier ones when the object
is built). -/
def parseAttributes (line : String) : List (String × String) :=
  scanAttrs line.data.length line.data

/-! ### `parseM3U` (index.js lines 423–447) -/

/-- The second element of `line.split(",", 2)`: the text between the first
and second commas (or the end of the line), `none` when there is no comma.
Model of `String.prototype.split` with a limit. -/
def extinfTitleSeg (line : String) : Option String :=
  match splitOnChar ',' line.data with
  | _ :: t :: _ => some (String.mk t)
  | _ => none

/-- `(title || "Unknown").trim()` (index.js line 435): the empty string is
falsy, so an empty title segment falls back to `"Unknown"`. -/
def extinfName (line : String) : String :=
  jsTrim (match extinfTitleSeg line with
    | some t => if t = "" then "Unknown" else t
    | none => "Unknown")

/-- The pending record opened by an `#EXTINF` line:
`{ name: (title || "Unknown").trim(), ...parseAttributes(line) }`.
The spread happens after `name` is written, so a `name="..."` attribute
overwrites the comma-derived title. -/
def seedRecord (line : String) : List (String × String) :=
  (parseAttributes line).foldl (fun o kv => mapSet o kv.1 kv.2)
    [("name", extinfName line)]

/-- Closing a pending record with a URL line:
`current.url = line; current.streamUrl = "/api/stream?url=" + encodeURIComponent(line)`. -/
def mkChannel (pending : List (String × String)) (url : String) : List (String × String) :=
  mapSet (mapSet pending "url" url) "streamUrl"
    ("/api/stream?url=" ++ encodeURIComponent url)

/-- The line loop of `parseM3U` (index.js lines 428–444). -/
def parseM3UGo : List String → Option (List (String × String)) →
    List (List (String × String)) → List (List (String × String))
  | [], _, acc => acc
  | rawLine :: rest, current, acc =>
    let line := jsTrim rawLine
    if line = "" then parseM3UGo rest current acc
    else if jsStartsWith line "#EXTINF" then parseM3UGo rest (some (seedRecord line)) acc
    else if !(jsStartsWith line "#") then
      match current with
      | some cur => parseM3UGo rest none (acc ++ [mkChannel cur line])
      | none => parseM3UGo rest current acc
    else parseM3UGo rest current acc

/-- `parseM3U` (index.js lines 423–447).  A channel is the pending record
with `url` and `streamUrl` written into it. -/
def parseM3U (content : String) : List (List (String × String)) :=
  parseM3UGo (jsSplitLines content) none []

/-! ### Spec-side line classification for claim C2 -/

/-- Does the (trimmed) line open a pending record? -/
def isExtinfLine (l : String) : Bool := jsStartsWith (jsTrim l) "#EXTINF"

/-- Is the (trimmed) line a URL line (non-blank, not a comment)? -/
def isUrlLine (l : String) : Bool :=
  !(jsTrim l = "") && !(jsStartsWith (jsTrim l) "#")

/-- Does an `#EXTINF` line followed by these lines produce a channel?
True exactly when a URL line occurs before any further `#EXTINF` line,
with only blanks and non-`#EXTINF` comments in between. -/
def extinfCompletes : List String → Bool
  | [] => false
  | l :: rest =>
    if isUrlLine l then true
    else if isExtinfLine l then false
    else extinfCompletes rest

/-- The channel count asserted by claim C2: the number of `#EXTINF` lines
that are each eventually followed, skipping blank and comment lines, by a
URL line — where a later `#EXTINF` with no intervening URL supersedes an
earlier one. -/
def specChannelCount (lines : List String) : Nat :=
  lines.tails.countP (fun t =>
    match t with
    | l :: rest => isExtinfLine l && extinfCompletes rest
    | [] => false)

/-- The (trimmed) URL line that closes a pending record opened just before
these lines: the first URL line, provided no further `#EXTINF` line comes
first; blanks and other comments are skipped. -/
def completingUrl : List String → Option String
  | [] => none
  | l :: rest =>
    if isUrlLine l then some (jsTrim l)
    else if isExtinfLine l then none
    else completingUrl rest

/-- The channel list asserted by claim C2, in input-line order: walking the
suffixes of the line list in position order, every `#EXTINF` line whose
following lines close it with a URL contributes the channel built from that
line and its closing URL. -/
def specChannels (lines : List String) : List (List (String × String)) :=
  lines.tails.filterMap (fun t =>
    match t with
    | l :: rest =>
      if isExtinfLine l then
        (completingUrl rest).map (fun u => mkChannel (seedRecord (jsTrim l)) u)
      else none
    | [] => none)

/-! ### `collectUrls` (index.js lines 81–91)

The regex
`/(https?:\/\/[^\s"'<>]+?(?:m3u8?|mp4|mov|mkv|avi|flv|mpd|webm|ts)[^\s"'<>]*)/gi`
is executed by the scanner below: match the scheme case-insensitively
(greedy optional `s`), then lazily consume characters of the permitted
class until one of the extension alternatives matches, then greedily
consume the rest of the permitted-class run; the global search resumes at
the end of each match, or one character later after a failed start. -/

/-- The character class `[^\s"'<>]`. -/
def isUrlChar (c : Char) : Bool :=
  !(isJsSpace c || c = quoteChar || c = aposChar || c = '<' || c = '>')

/-- Strip a literal (lower-case) pattern case-insensitively from the front
of the input, returning the consumed characters and the remainder. -/
def ciStrip : List Char → List Char → Option (List Char × List Char)
  | [], l => some ([], l)
  | _ :: _, [] => none
  | p :: ps, c :: cs =>
    if lowerChar c = p then (ciStrip ps cs).map (fun r => (c :: r.1, r.2))
    else none

/-- `https?:\/\/` with the greedy optional `s`: try `https://` first. -/
def matchScheme (l : List Char) : Option (List Char × List Char) :=
  match ciStrip "https://".data l with
  | some r => some r
  | none => ciStrip "http://".data l

/-- The extension alternatives `(?:m3u8?|mp4|mov|mkv|avi|flv|mpd|webm|ts)`
in backtracking order (`m3u8?` tries the `8` first). -/
def mediaExtsData : List (List Char) :=
  ["m3u8", "m3u", "mp4", "mov", "mkv", "avi", "flv", "mpd", "webm", "ts"].map
    String.data

/-- First extension alternative that matches at this position. -/
def tryExtAux : List (List Char) → List Char → Option (List Char × List Char)
  | [], _ => none
  | p :: ps, l =>
    match ciStrip p l with
    | some r => some r
    | none => tryExtAux ps l

/-- Try the extension alternation at this position. -/
def tryExt (l : List Char) : Option (List Char × List Char) :=
  tryExtAux mediaExtsData l

/-- The lazy `[^\s"'<>]+?` followed by the extension alternation: consume
the fewest (at least one) permitted characters after which an extension
matches.  Returns (consumed middle, matched extension, remainder). -/
def lazyScan : List Char → Option (List Char × List Char × List Char)
  | [] => none
  | c :: rest =>
    if isUrlChar c then
      match tryExt rest with
      | some r => some ([c], r.1, r.2)
      | none => (lazyScan rest).map (fun r => (c :: r.1, r.2.1, r.2.2))
    else none

/-- One regex match attempt anchored at the current position: scheme, lazy
middle, extension, then the greedy trailing `[^\s"'<>]*`. -/
def matchAt (l : List Char) : Option (List Char × List Char) :=
  match matchScheme l with
  | none => none
  | some sch =>
    match lazyScan sch.2 with
    | none => none
    | some mid =>
      some (sch.1 ++ mid.1 ++ mid.2.1 ++ mid.2.2.takeWhile isUrlChar,
        mid.2.2.dropWhile isUrlChar)

/-- Global regex scan (`regex.exec` loop): emit a match and resume after
it, or advance one character.  Fuel = input length + 1 suffices because
every step strictly shrinks the input. -/
def scanAll : Nat → List Char → List String
  | 0, _ => []
  | _, [] => []
  | fuel + 1, c :: rest =>
    match matchAt (c :: rest) with
    | some m => String.mk m.1 :: scanAll fuel m.2
    | none => scanAll fuel rest

/-- Deduplicate keeping first occurrences; model of
`[...new Set(list)]`. -/
def dedupKeepFirst (l : List String) : List String :=
  l.foldl (fun acc s => if s ∈ acc then acc else acc ++ [s]) []

/-- `collectUrls` (index.js lines 81–91).  `!text` is true for the empty
string. -/
def collectUrls (text : String) : List String :=
  if text = "" then []
  else dedupKeepFirst (scanAll (text.data.length + 1) text.data)

/-! ### `resolveWithLobster` (index.js lines 242–305)

`runCommand` (the subprocess adapter) and the VidSrc fallback resolver are
network/subprocess effects; they enter the model as the values they
produce: `RunResult` for the lobster invocation and
`Except String ResolvedTitle` for the fallback.  `JSON.parse` is a
platform builtin and is passed in as an abstract parser
`jsonParse : String → Option JsVal`; `parseJsonFromText` and
`flattenValues` (repository code) are modelled exactly. -/

/-- A parsed JSON value.  JS numbers are floats; an integer payload is
enough here because no verified claim inspects numeric leaves. -/
inductive JsVal where
  | str (s : String)
  | num (n : Int)
  | boolean (b : Bool)
  | nul
  | arr (items : List JsVal)
  | obj (fields : List (String × JsVal))

/-- `flattenValues` (index.js lines 105–117): collect every string leaf in
traversal order; numbers, booleans and null are ignored. -/
def flattenValues : JsVal → List String
  | JsVal.str s => [s]
  | JsVal.num _ => []
  | JsVal.boolean _ => []
  | JsVal.nul => []
  | JsVal.arr items => items.attach.flatMap (fun x => flattenValues x.1)
  | JsVal.obj fields => fields.attach.flatMap (fun f => flattenValues f.1.2)
decreasing_by
  · have h := List.sizeOf_lt_of_mem x.2
    simp only [JsVal.arr.sizeOf_spec]
    omega
  · rcases f with ⟨⟨a, b⟩, hf⟩
    have h := List.sizeOf_lt_of_mem hf
    simp only [Prod.mk.sizeOf_spec] at h ⊢
    simp only [JsVal.obj.sizeOf_spec]
    omega

/-- First index of a character, or `none`; model of `String.indexOf`. -/
def firstIdx (l : List Char) (c : Char) : Option Nat :=
  l.findIdx? (fun d => d = c)

/-- Last index of a character, or `none`; model of `String.lastIndexOf`. -/
def lastIdx (l : List Char) (c : Char) : Option Nat :=
  match l.reverse.findIdx? (fun d => d = c) with
  | some i => some (l.length - 1 - i)
  | none => none

/-- `parseJsonFromText` (index.js lines 93–103): slice from the first `{`
to the last `}` and parse; a failed parse (or no braces) yields `null`. -/
def parseJsonFromText (jsonParse : String → Option JsVal) (text : String) : Option JsVal :=
  if text = "" then none
  else
    match firstIdx text.data lbraceChar, lastIdx text.data rbraceChar with
    | some st, some en =>
      if en ≤ st then none
      else jsonParse (String.mk ((text.data.drop st).take (en + 1 - st)))
    | _, _ => none

/-- `query.replace(/\+/g, " ")`. -/
def jsReplacePlus (q : String) : String :=
  String.mk (q.data.map (fun c => if c = '+' then ' ' else c))

/-- JS truthiness of a JSON value. -/
def jsTruthy : JsVal → Bool
  | JsVal.str s => !(s = "")
  | JsVal.num n => !(n = 0)
  | JsVal.boolean b => b
  | JsVal.nul => false
  | JsVal.arr _ => true
  | JsVal.obj _ => true

/-- Property read on a JSON value (`undefined` for non-objects). -/
def jsProp (v : JsVal) (k : String) : Option JsVal :=
  match v with
  | JsVal.obj fields => (fields.find? (fun p => p.1 = k)).map (fun p => p.2)
  | _ => none

/-- Truthiness of a possibly-`undefined` value. -/
def truthyVal : Option JsVal → Bool
  | some x => jsTruthy x
  | none => false

/-- Display string of a JSON value used as a title.  The verified claims
never inspect a non-string title, so non-string values are approximated by
the empty string (JS would stringify them). -/
def jsValTitleString : JsVal → String
  | JsVal.str s => s
  | _ => ""

/-- `(parsed && (parsed.title || parsed.name || parsed?.info?.title)) ||
query.replace(/\+/g, " ")` (index.js lines 273–275). -/
def lobsterTitle (parsed : Option JsVal) (query : String) : String :=
  let picked : Option JsVal :=
    match parsed with
    | some p =>
      if jsTruthy p then
        let t1 := jsProp p "title"
        if truthyVal t1 then t1
        else
          let t2 := jsProp p "name"
          if truthyVal t2 then t2
          else
            let t3 := (jsProp p "info").bind (fun i => jsProp i "title")
            if truthyVal t3 then t3 else none
      else none
    | none => none
  match picked with
  | some v => jsValTitleString v
  | none => jsReplacePlus query

/-- A resolver result (`{title, urls, raw}`). -/
structure ResolvedTitle where
  title : String
  urls : List String
  raw : String
deriving DecidableEq

/-- Outcome of the `runCommand("lobster", ...)` subprocess invocation. -/
inductive RunResult where
  | ok (stdout : String) (stderr : String)
  | err (msg : String)
deriving DecidableEq

/-- `resolveWithLobster` (index.js lines 242–305).  On subprocess failure
`stdout` stays `""` and the error is kept in `lastError`; URL extraction
runs over stdout and over the string leaves of the opportunistically
parsed JSON; if nothing was found the VidSrc fallback runs only when
`TMDB_TOKEN` is truthy, and a failing fallback surfaces `lastError` when
one was captured. -/
def resolveWithLobster (jsonParse : String → Option JsVal) (run : RunResult)
    (tmdbToken : Option String) (fallback : Except String ResolvedTitle)
    (query : String) : Except String ResolvedTitle :=
  let stdout := match run with
    | RunResult.ok out _ => out
    | RunResult.err _ => ""
  let lastError : Option String := match run with
    | RunResult.ok _ _ => none
    | RunResult.err e => some e
  let urls := collectUrls stdout
  let parsed := parseJsonFromText jsonParse stdout
  let collected := match parsed with
    | some v => flattenValues v
    | none => []
  let extraUrls := collectUrls (joinSpace collected)
  let allUrls := dedupKeepFirst (urls ++ extraUrls)
  if !(allUrls = []) then
    Except.ok { title := lobsterTitle parsed query, urls := allUrls, raw := stdout }
  else
    let hasTmdb := match tmdbToken with
      | some t => !(t = "")
      | none => false
    if !hasTmdb then
      Except.error (match lastError with
        | some e => e
        | none => "lobster returned no URLs and TMDB_TOKEN is not set for the fallback resolver")
    else
      match fallback with
      | Except.ok fb => Except.ok { fb with raw := stdout ++ "\n[FALLBACK: vidsrc]" }
      | Except.error fe => Except.error (match lastError with
        | some e => e
        | none => "lobster returned no URLs; fallback failed: " ++ fe)

/-! ### `rewriteManifestWithProxy` (index.js lines 827–844) -/

/-- Split an http(s) URL into its scheme marker and the rest. -/
def schemeSplit (u : String) : Option (String × List Char) :=
  if jsStartsWith u "http://" then some ("http://", u.data.drop 7)
  else if jsStartsWith u "https://" then some ("https://", u.data.drop 8)
  else none

/-- The origin (scheme plus host) of an http(s) URL. -/
def urlOrigin (u : String) : String :=
  match schemeSplit u with
  | some su => su.1 ++ String.mk (su.2.takeWhile (fun c => !(c = '/')))
  | none => u

/-- Keep a path up to and including its last slash. -/
def keepToLastSlash (path : List Char) : List Char :=
  (path.reverse.dropWhile (fun c => !(c = '/'))).reverse

/-- The directory part (scheme, host and path up to the last slash) of an
http(s) URL, ignoring query and fragment. -/
def urlDir (u : String) : String :=
  match schemeSplit u with
  | some su =>
    let host := su.2.takeWhile (fun c => !(c = '/'))
    let path := (su.2.drop host.length).takeWhile (fun c => !(c = '?') && !(c = '#'))
    if path.contains '/' then su.1 ++ String.mk host ++ String.mk (keepToLastSlash path)
    else su.1 ++ String.mk host ++ "/"
  | none => u

/-- Model of the platform builtin `new URL(ref, base).toString()`
restricted to already-normalized http/https URLs: absolute references
pass through, protocol-relative references take the base scheme,
root-relative references join the base origin, and other references join
the base directory.  WHATWG normalization (scheme/host case, default
ports, dot segments, percent-normalization) is not modelled. -/
def resolveUrl (baseUrl ref : String) : String :=
  if jsStartsWith ref "http://" || jsStartsWith ref "https://" then ref
  else if jsStartsWith ref "//" then
    (match schemeSplit baseUrl with
      | some su => String.mk (su.1.data.dropLast.dropLast) ++ ref
      | none => ref)
  else if jsStartsWith ref "/" then urlOrigin baseUrl ++ ref
  else urlDir baseUrl ++ ref

/-- The per-line transformation of `rewriteManifestWithProxy`
(index.js lines 831–842): blank, comment and `DATA:` lines are returned
trimmed; every other line is resolved against the source URL and wrapped
as a relay URL. -/
def rewriteLine (sourceUrl line : String) : String :=
  let trimmed := jsTrim line
  if trimmed = "" || jsStartsWith trimmed "#" || jsStartsWith trimmed "DATA:" then trimmed
  else "/api/stream?url=" ++ encodeURIComponent (resolveUrl sourceUrl trimmed)

/-- `rewriteManifestWithProxy` (index.js lines 827–844): split on
`/\r?\n/`, map each line, join with `"\n"`. -/
def rewriteManifestWithProxy (body sourceUrl : String) : String :=
  joinLines ((jsSplitLines body).map (rewriteLine sourceUrl))

/-! ### Spec-side definitions for claims C8 and C9 -/

/-- Spec-side definition for the amended C8, written from the amended
claim: the text strictly between the first comma and the second comma (or
the end of the line), `none` when the line has no comma. -/
def betweenCommas (line : String) : Option String :=
  if line.data.any (fun c => c = ',') then
    some (String.mk (((line.data.dropWhile (fun c => !(c = ','))).tail).takeWhile
      (fun c => !(c = ','))))
  else none

/-- Spec-side amended C8 name: the between-commas segment trimmed,
defaulting to `"Unknown"` when the segment is absent or empty. -/
def specCommaName (line : String) : String :=
  jsTrim (match betweenCommas line with
    | some t => if t = "" then "Unknown" else t
    | none => "Unknown")

/-- The value of the last regex match for a given key — the value the
attribute object carries for that key, since later assignments overwrite
earlier ones. -/
def lastVal (attrs : List (String × String)) (k : String) : Option String :=
  (attrs.reverse.find? (fun p => p.1 = k)).map (fun p => p.2)

/-! ## Helper lemmas: association-list maps -/

theorem mapGet_nil {β : Type} (k : String) : mapGet ([] : List (String × β)) k = none := rfl

theorem mapGet_cons {β : Type} (p : String × β) (rest : List (String × β)) (k : String) :
    mapGet (p :: rest) k = if p.1 = k then some p.2 else mapGet rest k := by
  by_cases h : p.1 = k
  · simp [mapGet, List.find?_cons_of_pos, h]
  · simp [mapGet, List.find?_cons_of_neg, h]

theorem mapGet_mapSet_self {β : Type} (m : List (String × β)) (k : String) (v : β) :
    mapGet (mapSet m k v) k = some v := by
  induction m with
  | nil => simp [mapSet, mapGet_cons]
  | cons p rest ih =>
    by_cases h : p.1 = k
    · simp [mapSet, h, mapGet_cons]
    · simp [mapSet, h, mapGet_cons, ih]

theorem mapGet_mapSet_ne {β : Type} (m : List (String × β)) (k' k : String) (v : β)
    (h : ¬ k' = k) : mapGet (mapSet m k' v) k = mapGet m k := by
  induction m with
  | nil => simp [mapSet, mapGet_cons, mapGet_nil, h]
  | cons p rest ih =>
    by_cases hp : p.1 = k'
    · rw [show mapSet (p :: rest) k' v = (k', v) :: rest from by simp [mapSet, hp],
        mapGet_cons, mapGet_cons, hp]
      simp [h]
    · rw [show mapSet (p :: rest) k' v = p :: mapSet rest k' v from by simp [mapSet, hp],
        mapGet_cons, mapGet_cons, ih]

theorem mapGet_mapDelete_self {β : Type} (m : List (String × β)) (k : String) :
    mapGet (mapDelete m k) k = none := by
  induction m with
  | nil => simp [mapDelete, mapGet_nil]
  | cons p rest ih =>
    by_cases h : p.1 = k
    · simpa [mapDelete, h] using ih
    · simpa [mapDelete, h, mapGet_cons] using ih

/-! ## Claim C3: metadata-cache TTL -/

/-- C3 (amended): a cache entry inserted at time `T` is returned unchanged
by `getCache` for any read at time `t ≤ T + CACHE_TTL_MS`, and for any read
at time strictly greater than `T + CACHE_TTL_MS` it is reported absent and
the expired entry is deleted from the map by that lookup.  (The claim as
stated put the boundary read `t = T + CACHE_TTL_MS` on the absent side;
the code expires only when `Date.now() > entry.expires`.) -/
theorem getCache_ttl {α : Type} (cache : List (String × CacheEntry α)) (key : String)
    (v : α) (T t : Nat) :
    (t ≤ T + CACHE_TTL_MS → (getCache (setCache cache T key v) t key).1 = some v) ∧
    (T + CACHE_TTL_MS < t →
      (getCache (setCache cache T key v) t key).1 = none ∧
      mapGet (getCache (setCache cache T key v) t key).2 key = none) := by
  have hget : mapGet (setCache cache T key v) key =
      some { value := v, expires := T + CACHE_TTL_MS } :=
    mapGet_mapSet_self cache key _
  constructor
  · intro hle
    simp [getCache, hget, Nat.not_lt_of_le hle]
  · intro hgt
    refine ⟨?_, ?_⟩
    · simp [getCache, hget, hgt]
    · simp [getCache, hget, hgt, mapGet_mapDelete_self]

/-- Witness for C3: at `T = 0` a read at `60000 = T + TTL` still returns the
value, a read at `60001` reports absence and deletes the entry. -/
theorem getCache_ttl_witness :
    (getCache (setCache ([] : List (String × CacheEntry Nat)) 0 "k" 37) 60000 "k").1 = some 37 ∧
    (getCache (setCache ([] : List (String × CacheEntry Nat)) 0 "k" 37) 60001 "k").1 = none ∧
    mapGet (getCache (setCache ([] : List (String × CacheEntry Nat)) 0 "k" 37) 60001 "k").2
      "k" = none := by
  refine ⟨(getCache_ttl [] "k" 37 0 60000).1 (by decide),
    ((getCache_ttl [] "k" 37 0 60001).2 (by decide)).1,
    ((getCache_ttl [] "k" 37 0 60001).2 (by decide)).2⟩

/-- Counterexample to C3 as stated: the claim says a read at time
`T + TTL` (which is `≥ T + TTL`) reports the entry absent, but the code
only expires when `now > expires`, so the boundary read returns the value. -/
theorem getCache_at_exact_ttl :
    (getCache (setCache ([] : List (String × CacheEntry Nat)) 0 "k" 37)
      (0 + CACHE_TTL_MS) "k").1 = some 37 := by decide

/-! ## Claim C10: case-sensitive manifest classification -/

/-- C10: manifest classification is case-sensitive substring containment;
a content type containing only the lower-case `application/x-mpegurl`
variant (and none of the three exact markers) is not classified as a
manifest, and the relay pipes the body through with the original content
type. -/
theorem isManifest_case_sensitive (ct : String)
    (h1 : containsSub ct "application/x-mpegurl" = true)
    (h2 : containsSub ct "application/vnd.apple.mpegurl" = false)
    (h3 : containsSub ct "application/x-mpegURL" = false)
    (h4 : containsSub ct "application/octet-stream" = false) :
    isManifest ct = false ∧ streamClassify ct = StreamAction.pipeThrough ct := by
  have hm : isManifest ct = false := by simp [isManifest, h2, h3, h4]
  exact ⟨hm, by simp [streamClassify, hm]⟩

/-- Witness for C10 at the content type `application/x-mpegurl` itself. -/
theorem isManifest_case_sensitive_witness :
    isManifest "application/x-mpegurl" = false ∧
    streamClassify "application/x-mpegurl" =
      StreamAction.pipeThrough "application/x-mpegurl" :=
  isManifest_case_sensitive "application/x-mpegurl"
    (by decide) (by decide) (by decide) (by decide)

/-! ## Claim C7: MAC-address validation -/

theorem macRegexAlt1_eq_groups (l : List Char) : macRegexAlt1 l = sixHexPairs isMacSep l := by
  rcases l with _ | ⟨a, _ | ⟨b, _ | ⟨s1, _ | ⟨c, _ | ⟨d, _ | ⟨s2, _ | ⟨e, _ | ⟨f, _ |
    ⟨s3, _ | ⟨g, _ | ⟨h, _ | ⟨s4, _ | ⟨i, _ | ⟨j, _ | ⟨s5, _ | ⟨k, _ | ⟨m, _ |
    ⟨x, rest⟩⟩⟩⟩⟩⟩⟩⟩⟩⟩⟩⟩⟩⟩⟩⟩⟩⟩ <;>
    simp [macRegexAlt1, sixHexPairs, hexPairSep, hexPairEnd, Bool.and_assoc]

/-- C7 (amended): a `mac` value passes the handler's validation exactly
when it is 12 hex digits with no separator, or six hex pairs where each of
the five separators is independently a colon or a hyphen (mixed separators
are accepted); the handler rejects with
`400 {"error":"Invalid MAC address format"}` exactly on the complement. -/
theorem macRegexTest_mixed (s : String) :
    macRegexTest s = macSpecAmended s ∧
    (channelsMacStep s = ChannelsMacOutcome.rejected 400 "Invalid MAC address format" ↔
      macSpecAmended s = false) := by
  have h1 : macRegexTest s = macSpecAmended s := by
    rw [macRegexTest, macSpecAmended, macRegexAlt1_eq_groups]
  refine ⟨h1, ?_⟩
  by_cases h : macRegexTest s = true
  · have : macSpecAmended s = true := h1 ▸ h
    simp [channelsMacStep, h, this]
  · have hf : macRegexTest s = false := by simpa using h
    have : macSpecAmended s = false := h1 ▸ hf
    simp [channelsMacStep, hf, this]

/-- Counterexample to C7 as stated: `"AA:BB-CC:DD-EE:FF"` mixes colon and
hyphen separators, so it is outside the claim's accepted set (colons
uniformly, hyphens uniformly, or bare 12 hex digits) and the claim predicts
a 400 — but the regex accepts it and the handler proceeds. -/
theorem macRegex_mixed_counterexample :
    macRegexTest "AA:BB-CC:DD-EE:FF" = true ∧
    macSpecClaim "AA:BB-CC:DD-EE:FF" = false ∧
    ¬ channelsMacStep "AA:BB-CC:DD-EE:FF" =
      ChannelsMacOutcome.rejected 400 "Invalid MAC address format" := by
  refine ⟨by decide, by decide, by decide⟩

/-! ## Claim C4: lobster fallback error precedence -/

/-- C4: when the lobster subprocess fails with `e1` (so no URLs are
extracted) and the VidSrc fallback also fails with `e2`, the surfaced
error is `e1`; only when the subprocess succeeded but yielded zero URLs
(no primary error captured) is an error derived from the fallback's
failure surfaced instead. -/
theorem resolveWithLobster_error_precedence (jsonParse : String → Option JsVal)
    (e1 e2 tok q : String) (htok : ¬ tok = "") :
    resolveWithLobster jsonParse (RunResult.err e1) (some tok) (Except.error e2) q =
      Except.error e1 ∧
    ∀ out errS, collectUrls out = [] → parseJsonFromText jsonParse out = none →
      resolveWithLobster jsonParse (RunResult.ok out errS) (some tok) (Except.error e2) q =
        Except.error ("lobster returned no URLs; fallback failed: " ++ e2) := by
  have hempty : collectUrls "" = [] := rfl
  constructor
  · simp [resolveWithLobster, hempty, parseJsonFromText, joinSpace, joinWith,
      dedupKeepFirst, htok]
  · intro out errS h1 h2
    simp [resolveWithLobster, h1, h2, hempty, joinSpace, joinWith,
      dedupKeepFirst, htok]

/-- Witness for C4: a failed subprocess surfaces its own error past a
failed fallback; a subprocess that printed no URLs surfaces the
fallback-derived error. -/
theorem resolveWithLobster_error_precedence_witness :
    resolveWithLobster (fun _ => none) (RunResult.err "primary failed") (some "token")
      (Except.error "fallback down") "q" = Except.error "primary failed" ∧
    resolveWithLobster (fun _ => none) (RunResult.ok "no results" "") (some "token")
      (Except.error "fallback down") "q" =
      Except.error ("lobster returned no URLs; fallback failed: " ++ "fallback down") := by
  refine ⟨(resolveWithLobster_error_precedence (fun _ => none) "primary failed"
      "fallback down" "token" "q" (by decide)).1,
    (resolveWithLobster_error_precedence (fun _ => none) "primary failed"
      "fallback down" "token" "q" (by decide)).2 "no results" "" rfl rfl⟩

/-! ## Claim C2: parseM3U channel count -/

theorem isPrefixOf_cons_elim {c : Char} {p l : List Char}
    (h : List.isPrefixOf (c :: p) l = true) : ∃ ts, l = c :: ts := by
  cases l with
  | nil => exact absurd h (by simp)
  | cons b bs =>
    rw [List.isPrefixOf_cons₂] at h
    have h' : c = b ∧ List.isPrefixOf p bs = true := by simpa using h
    exact ⟨bs, by rw [h'.1]⟩

/-- A line starting with `#EXTINF` is nonempty after trimming. -/
theorem extinf_trim_ne_empty {t : String} (h : jsStartsWith t "#EXTINF" = true) :
    ¬ t = "" := by
  intro he
  rw [he] at h
  exact absurd h (by decide)

/-- A line starting with `#EXTINF` starts with `#`. -/
theorem extinf_starts_hash {t : String} (h : jsStartsWith t "#EXTINF" = true) :
    jsStartsWith t "#" = true := by
  rcases isPrefixOf_cons_elim h with ⟨ts, hts⟩
  show List.isPrefixOf "#".data t.data = true
  rw [hts]
  simp

theorem specChannelCount_nil : specChannelCount [] = 0 := rfl

theorem specChannelCount_cons (l : String) (rest : List String) :
    specChannelCount (l :: rest) =
      (if isExtinfLine l && extinfCompletes rest then 1 else 0) + specChannelCount rest := by
  simp only [specChannelCount, List.tails_cons, List.countP_cons]
  omega

theorem extinfCompletes_cons (l : String) (rest : List String) :
    extinfCompletes (l :: rest) =
      if isUrlLine l then true
      else if isExtinfLine l then false
      else extinfCompletes rest := rfl

/-- One unfolding step of the `parseM3U` line loop. -/
theorem parseM3UGo_cons (l : String) (rest : List String)
    (cur : Option (List (String × String))) (acc : List (List (String × String))) :
    parseM3UGo (l :: rest) cur acc =
      if jsTrim l = "" then parseM3UGo rest cur acc
      else if jsStartsWith (jsTrim l) "#EXTINF" then
        parseM3UGo rest (some (seedRecord (jsTrim l))) acc
      else if !(jsStartsWith (jsTrim l) "#") then
        match cur with
        | some c => parseM3UGo rest none (acc ++ [mkChannel c (jsTrim l)])
        | none => parseM3UGo rest cur acc
      else parseM3UGo rest cur acc := rfl

theorem parseM3UGo_length (lines : List String) : ∀ (cur : Option (List (String × String)))
    (acc : List (List (String × String))),
    (parseM3UGo lines cur acc).length =
      acc.length + (if cur.isSome && extinfCompletes lines then 1 else 0) +
        specChannelCount lines := by
  induction lines with
  | nil =>
    intro cur acc
    simp [parseM3UGo, extinfCompletes, specChannelCount]
  | cons l rest ih =>
    intro cur acc
    rw [parseM3UGo_cons, specChannelCount_cons, extinfCompletes_cons]
    by_cases h1 : jsTrim l = ""
    · have hext : isExtinfLine l = false := by
        unfold isExtinfLine
        rw [h1]
        rfl
      have hurl : isUrlLine l = false := by
        unfold isUrlLine
        rw [h1]
        rfl
      rw [if_pos h1, ih, hext, hurl]
      simp
    · by_cases h2 : jsStartsWith (jsTrim l) "#EXTINF" = true
      · have hext : isExtinfLine l = true := h2
        have hurl : isUrlLine l = false := by
          unfold isUrlLine
          simp [extinf_starts_hash h2]
        rw [if_neg h1, if_pos h2, ih, hext, hurl]
        simp
        try omega
      · by_cases h3 : jsStartsWith (jsTrim l) "#" = true
        · have hext : isExtinfLine l = false := by simpa [isExtinfLine] using h2
          have hurl : isUrlLine l = false := by
            unfold isUrlLine
            simp [h3]
          rw [if_neg h1, if_neg (by simpa using h2), if_neg (by simp [h3]), ih, hext, hurl]
          simp
        · have hext : isExtinfLine l = false := by simpa [isExtinfLine] using h2
          have hurl : isUrlLine l = true := by
            unfold isUrlLine
            simp [h1, h3]
          cases cur with
          | none =>
            rw [if_neg h1, if_neg (by simpa using h2), if_pos (by simp [h3]), ih, hext, hurl]
            simp
          | some c =>
            rw [if_neg h1, if_neg (by simpa using h2), if_pos (by simp [h3]), ih, hext, hurl]
            simp
            try omega

theorem completingUrl_cons (l : String) (rest : List String) :
    completingUrl (l :: rest) =
      if isUrlLine l then some (jsTrim l)
      else if isExtinfLine l then none
      else completingUrl rest := rfl

theorem specChannels_nil : specChannels [] = [] := rfl

theorem specChannels_cons (l : String) (rest : List String) :
    specChannels (l :: rest) =
      (if isExtinfLine l then
        ((completingUrl rest).map (fun u => mkChannel (seedRecord (jsTrim l)) u)).toList
      else []) ++ specChannels rest := by
  by_cases h : isExtinfLine l = true
  · cases hc : completingUrl rest with
    | none => simp [specChannels, List.tails_cons, List.filterMap_cons, h, hc]
    | some u => simp [specChannels, List.tails_cons, List.filterMap_cons, h, hc]
  · simp [specChannels, List.tails_cons, List.filterMap_cons, h]

/-- The parser loop produces, after the already-accumulated channels and
the completion of any pending record, exactly the spec-side channel list
of the remaining lines, in order. -/
theorem parseM3UGo_eq (lines : List String) : ∀ (cur : Option (List (String × String)))
    (acc : List (List (String × String))),
    parseM3UGo lines cur acc =
      acc ++ (match cur with
        | some c => ((completingUrl lines).map (fun u => mkChannel c u)).toList
        | none => []) ++ specChannels lines := by
  induction lines with
  | nil =>
    intro cur acc
    cases cur <;> simp [parseM3UGo, completingUrl, specChannels]
  | cons l rest ih =>
    intro cur acc
    rw [parseM3UGo_cons, specChannels_cons, completingUrl_cons]
    by_cases h1 : jsTrim l = ""
    · have hext : isExtinfLine l = false := by
        unfold isExtinfLine
        rw [h1]
        rfl
      have hurl : isUrlLine l = false := by
        unfold isUrlLine
        rw [h1]
        rfl
      rw [if_pos h1, ih, hext, hurl]
      cases cur <;> simp
    · by_cases h2 : jsStartsWith (jsTrim l) "#EXTINF" = true
      · have hext : isExtinfLine l = true := h2
        have hurl : isUrlLine l = false := by
          unfold isUrlLine
          simp [extinf_starts_hash h2]
        rw [if_neg h1, if_pos h2, ih, hext, hurl]
        cases cur <;> simp
      · by_cases h3 : jsStartsWith (jsTrim l) "#" = true
        · have hext : isExtinfLine l = false := by simpa [isExtinfLine] using h2
          have hurl : isUrlLine l = false := by
            unfold isUrlLine
            simp [h3]
          rw [if_neg h1, if_neg (by simpa using h2), if_neg (by simp [h3]), ih,
            hext, hurl]
          cases cur <;> simp
        · have hext : isExtinfLine l = false := by simpa [isExtinfLine] using h2
          have hurl : isUrlLine l = true := by
            unfold isUrlLine
            simp [h1, h3]
          cases cur with
          | none =>
            rw [if_neg h1, if_neg (by simpa using h2), if_pos (by simp [h3]),
              hext, hurl]
            simp only [ih]
            simp
          | some c =>
            rw [if_neg h1, if_neg (by simpa using h2), if_pos (by simp [h3]),
              hext, hurl]
            simp only [ih]
            simp

/-- C2: the number of channels returned by `parseM3U` equals the number of
`#EXTINF` lines that are each eventually followed — skipping blank lines
and comments, with a later `#EXTINF` superseding an earlier one — by a URL
line (`specChannelCount`); in particular a trailing `#EXTINF` with no
following URL line produces no channel.  The channel list itself equals
`specChannels`, which enumerates the surviving `#EXTINF` lines in input
position order (second conjunct), so output channel order equals input
line order.  Of consecutive `#EXTINF` lines without an intervening URL
line only the last contributes: the first of two adjacent `#EXTINF` lines
can be dropped without changing the result (third conjunct). -/
theorem parseM3U_channel_count (content : String) :
    (parseM3U content).length = specChannelCount (jsSplitLines content) ∧
    parseM3U content = specChannels (jsSplitLines content) ∧
    ∀ l1 l2 rest cur acc, isExtinfLine l1 = true → isExtinfLine l2 = true →
      parseM3UGo (l1 :: l2 :: rest) cur acc = parseM3UGo (l2 :: rest) cur acc := by
  refine ⟨?_, ?_, ?_⟩
  · have h := parseM3UGo_length (jsSplitLines content) none []
    simpa [parseM3U] using h
  · have h := parseM3UGo_eq (jsSplitLines content) none []
    simpa [parseM3U] using h
  · intro l1 l2 rest cur acc h1 h2
    have hne1 : ¬ jsTrim l1 = "" := extinf_trim_ne_empty h1
    have hne2 : ¬ jsTrim l2 = "" := extinf_trim_ne_empty h2
    have h1' : jsStartsWith (jsTrim l1) "#EXTINF" = true := h1
    have h2' : jsStartsWith (jsTrim l2) "#EXTINF" = true := h2
    rw [parseM3UGo_cons l1, if_neg hne1, if_pos h1',
      parseM3UGo_cons l2, if_neg hne2, if_pos h2',
      parseM3UGo_cons l2, if_neg hne2, if_pos h2']

/-- Witness for C2: two consecutive `#EXTINF` lines then a URL produce one
channel, a trailing `#EXTINF` produces none; the overwrite step is checked
at concrete lines. -/
theorem parseM3U_channel_count_witness :
    (parseM3U "#EXTINF:-1,A\n#EXTINF:-1,B\nhttp://u\n#EXTINF:-1,C").length =
      specChannelCount (jsSplitLines "#EXTINF:-1,A\n#EXTINF:-1,B\nhttp://u\n#EXTINF:-1,C") ∧
    parseM3U "#EXTINF:-1,A\n#EXTINF:-1,B\nhttp://u\n#EXTINF:-1,C" =
      specChannels (jsSplitLines "#EXTINF:-1,A\n#EXTINF:-1,B\nhttp://u\n#EXTINF:-1,C") ∧
    parseM3UGo ["#EXTINF:-1,A", "#EXTINF:-1,B", "http://u"] none [] =
      parseM3UGo ["#EXTINF:-1,B", "http://u"] none [] := by
  refine ⟨(parseM3U_channel_count "#EXTINF:-1,A\n#EXTINF:-1,B\nhttp://u\n#EXTINF:-1,C").1,
    (parseM3U_channel_count "#EXTINF:-1,A\n#EXTINF:-1,B\nhttp://u\n#EXTINF:-1,C").2.1,
    (parseM3U_channel_count "").2.2 "#EXTINF:-1,A" "#EXTINF:-1,B" ["http://u"] none []
      (by decide) (by decide)⟩

/-! ## Claims C8 and C9: channel names -/

theorem splitOnChar_no_sep (sep : Char) (l : List Char)
    (h : ∀ c ∈ l, ¬ c = sep) : splitOnChar sep l = [l] := by
  induction l with
  | nil => rfl
  | cons c rest ih =>
    have hc : ¬ c = sep := h c (by simp)
    have hrest := ih (fun d hd => h d (by simp [hd]))
    simp [splitOnChar, hc, hrest]

theorem splitOnChar_head (sep : Char) (l : List Char) :
    ∃ t, splitOnChar sep l = (l.takeWhile (fun c => !(c = sep))) :: t := by
  induction l with
  | nil => exact ⟨[], rfl⟩
  | cons c rest ih =>
    by_cases hc : c = sep
    · exact ⟨splitOnChar sep rest, by simp [splitOnChar, hc, List.takeWhile_cons]⟩
    · rcases ih with ⟨t, ht⟩
      exact ⟨t, by simp [splitOnChar, hc, ht, List.takeWhile_cons]⟩

theorem splitOnChar_append_sep (sep : Char) (p t : List Char)
    (h : ∀ c ∈ p, ¬ c = sep) : splitOnChar sep (p ++ sep :: t) = p :: splitOnChar sep t := by
  induction p with
  | nil => simp [splitOnChar]
  | cons c rest ih =>
    have hc : ¬ c = sep := h c (by simp)
    have hrest := ih (fun d hd => h d (by simp [hd]))
    simp [splitOnChar, hc, hrest]

theorem dropWhile_of_any (sep : Char) (l : List Char)
    (h : l.any (fun c => c = sep) = true) :
    ∃ t, l.dropWhile (fun c => !(c = sep)) = sep :: t := by
  induction l with
  | nil => exact absurd h (by simp)
  | cons c rest ih =>
    by_cases hc : c = sep
    · exact ⟨rest, by simp [List.dropWhile_cons, hc]⟩
    · have hrest : rest.any (fun c => c = sep) = true := by
        rcases List.any_eq_true.mp h with ⟨x, hx, hxs⟩
        rcases List.mem_cons.mp hx with rfl | hx'
        · exact absurd (of_decide_eq_true hxs) hc
        · exact List.any_eq_true.mpr ⟨x, hx', hxs⟩
      rcases ih hrest with ⟨t, ht⟩
      exact ⟨t, by simp [List.dropWhile_cons, hc, ht]⟩

/-- The second element of the comma split is exactly the text between the
first and second commas. -/
theorem extinfTitleSeg_eq_betweenCommas (line : String) :
    extinfTitleSeg line = betweenCommas line := by
  unfold extinfTitleSeg betweenCommas
  by_cases h : line.data.any (fun c => c = ',') = true
  · rcases dropWhile_of_any ',' line.data h with ⟨t, ht⟩
    have hsplit : line.data = (line.data.takeWhile (fun c => !(c = ','))) ++ ',' :: t := by
      conv_lhs => rw [← List.takeWhile_append_dropWhile (p := fun c => !(c = ','))
        (l := line.data)]
      rw [ht]
    have htake : ∀ c ∈ line.data.takeWhile (fun c => !(c = ',')), ¬ c = ',' := by
      intro c hc
      simpa using List.mem_takeWhile_imp hc
    rcases splitOnChar_head ',' t with ⟨t2, ht2⟩
    rw [if_pos h, ht]
    conv_lhs => rw [hsplit]
    rw [splitOnChar_append_sep ',' _ _ htake, ht2]
    simp
  · have h' : ∀ c ∈ line.data, ¬ c = ',' := by
      intro c hc hcs
      exact h (List.any_eq_true.mpr ⟨c, hc, by simp [hcs]⟩)
    rw [splitOnChar_no_sep ',' line.data h']
    simp [h]

/-- The comma-derived name equals the spec-side between-commas name. -/
theorem extinfName_eq_specCommaName (line : String) :
    extinfName line = specCommaName line := by
  unfold extinfName specCommaName
  rw [extinfTitleSeg_eq_betweenCommas]

theorem mapGet_foldl_of_none (attrs : List (String × String)) (k : String) :
    ∀ (o : List (String × String)), (∀ kv ∈ attrs, ¬ kv.1 = k) →
    mapGet (attrs.foldl (fun o kv => mapSet o kv.1 kv.2) o) k = mapGet o k := by
  induction attrs with
  | nil => intro o _; rfl
  | cons kv rest ih =>
    intro o h
    rw [List.foldl_cons, ih _ (fun kv' h' => h kv' (by simp [h'])),
      mapGet_mapSet_ne _ _ _ _ (h kv (by simp))]

/-- C8 (amended): when the `#EXTINF` line carries no `name="..."`
attribute, the seeded channel name is the text between the first and
second commas (or the end of the line), trimmed, defaulting to
`"Unknown"` when that segment is absent or empty — not the whole text
following the first comma. -/
theorem extinf_name_between_commas (line : String)
    (hattr : ∀ kv ∈ parseAttributes line, ¬ kv.1 = "name") :
    mapGet (seedRecord line) "name" = some (specCommaName line) ∧
    extinfName line = specCommaName line := by
  have hname := extinfName_eq_specCommaName line
  refine ⟨?_, hname⟩
  unfold seedRecord
  rw [mapGet_foldl_of_none _ _ _ hattr, mapGet_cons]
  simp [hname]

/-- Witness for C8 at `#EXTINF:-1,A,B`. -/
theorem extinf_name_between_commas_witness :
    mapGet (seedRecord "#EXTINF:-1,A,B") "name" =
      some (specCommaName "#EXTINF:-1,A,B") ∧
    extinfName "#EXTINF:-1,A,B" = specCommaName "#EXTINF:-1,A,B" :=
  extinf_name_between_commas "#EXTINF:-1,A,B" (by decide)

/-- Counterexample to C8 as stated: for the line `#EXTINF:-1,A,B` the text
following the first comma (trimmed) is `"A,B"`, but `line.split(",", 2)`
keeps only the text before the second comma, so the produced channel's
name is `"A"`. -/
theorem extinf_name_second_comma :
    (parseM3U "#EXTINF:-1,A,B\nhttp://x").map (fun ch => mapGet ch "name") =
      [some "A"] ∧ ¬ ("A" : String) = "A,B" :=
  ⟨by decide, by decide⟩

theorem mapGet_foldl_mapSet (attrs : List (String × String)) (k : String) :
    ∀ (o : List (String × String)),
    mapGet (attrs.foldl (fun o kv => mapSet o kv.1 kv.2) o) k =
      (lastVal attrs k).or (mapGet o k) := by
  induction attrs with
  | nil => intro o; simp [lastVal]
  | cons kv rest ih =>
    intro o
    rw [List.foldl_cons, ih]
    have hlast : lastVal (kv :: rest) k =
        (lastVal rest k).or (if kv.1 = k then some kv.2 else none) := by
      unfold lastVal
      rw [List.reverse_cons, List.find?_append]
      by_cases hk : kv.1 = k
      · cases hrev : (rest.reverse.find? (fun p => p.1 = k)) <;>
          simp [hrev, List.find?, hk, Option.or]
      · cases hrev : (rest.reverse.find? (fun p => p.1 = k)) <;>
          simp [hrev, List.find?, hk, Option.or]
    rw [hlast]
    by_cases hk : kv.1 = k
    · rw [hk, mapGet_mapSet_self]
      cases hl : lastVal rest k <;> simp [Option.or, hk]
    · rw [mapGet_mapSet_ne _ _ _ _ hk]
      cases hl : lastVal rest k <;> simp [Option.or, hk]

/-- C9: a quoted `name="..."` attribute on the `#EXTINF` line overrides
the comma-derived display title, because the attribute map is spread into
the record after the `name` field is set; the override survives into the
finished channel (adding `url` and `streamUrl` does not touch `name`). -/
theorem name_attribute_overrides (line url v : String)
    (h : lastVal (parseAttributes line) "name" = some v) :
    mapGet (seedRecord line) "name" = some v ∧
    mapGet (mkChannel (seedRecord line) url) "name" = some v := by
  have hseed : mapGet (seedRecord line) "name" = some v := by
    unfold seedRecord
    rw [mapGet_foldl_mapSet, h]
    rfl
  refine ⟨hseed, ?_⟩
  unfold mkChannel
  rw [mapGet_mapSet_ne _ _ _ _ (by decide), mapGet_mapSet_ne _ _ _ _ (by decide), hseed]

/-- Witness for C9 at `#EXTINF:-1 name="X",Y`: the comma title is `Y` but
the channel's name is `X`. -/
theorem name_attribute_overrides_witness :
    mapGet (seedRecord "#EXTINF:-1 name=\"X\",Y") "name" = some "X" ∧
    mapGet (mkChannel (seedRecord "#EXTINF:-1 name=\"X\",Y") "http://u") "name" =
      some "X" :=
  name_attribute_overrides "#EXTINF:-1 name=\"X\",Y" "http://u" "X" (by decide)

/-! ## Claim C5: streamUrl round trip

`decodeURIComponent ∘ encodeURIComponent` is the identity: the encoder
emits each character either as an unreserved literal or as the percent
escapes of its UTF-8 bytes, and the decoder inverts both forms. -/

theorem char_toNat_lt (c : Char) : c.toNat < 1114112 := by
  rcases c.valid with h | ⟨_, h2⟩
  · exact Nat.lt_trans h (by norm_num)
  · exact h2

theorem hexVal?_hexDigitChar {n : Nat} (h : n < 16) :
    hexVal? (hexDigitChar n) = some n := by
  interval_cases n <;> decide

theorem utf8Bytes_lt (c : Char) : ∀ b ∈ utf8Bytes c, b < 256 := by
  intro b hb
  have hv := char_toNat_lt c
  unfold utf8Bytes at hb
  by_cases h1 : c.toNat < 128
  · simp [h1] at hb
    omega
  · by_cases h2 : c.toNat < 2048
    · simp [h1, h2] at hb
      rcases hb with rfl | rfl <;> omega
    · by_cases h3 : c.toNat < 65536
      · simp [h1, h2, h3] at hb
        rcases hb with rfl | rfl | rfl <;> omega
      · simp [h1, h2, h3] at hb
        rcases hb with rfl | rfl | rfl | rfl <;> omega

theorem pctTokens_pct (h1 h2 : Char) (a b : Nat) (l : List Char)
    (hh1 : hexVal? h1 = some a) (hh2 : hexVal? h2 = some b) :
    pctTokens ('%' :: h1 :: h2 :: l) =
      (pctTokens l).map (fun t => PctTok.byte (16 * a + b) :: t) := by
  rw [pctTokens.eq_def]
  simp only [hh1, hh2]
  rfl

theorem pctTokens_chr (c : Char) (l : List Char) (hne : ¬ c = '%') :
    pctTokens (c :: l) = (pctTokens l).map (fun t => PctTok.chr c :: t) := by
  rw [pctTokens.eq_def]
  simp only [if_neg hne]

theorem pctTokens_escByte {b : Nat} (hb : b < 256) (l : List Char) :
    pctTokens (escByte b ++ l) = (pctTokens l).map (fun t => PctTok.byte b :: t) := by
  have h1 : b / 16 < 16 := by omega
  have h2 : b % 16 < 16 := by omega
  have e := pctTokens_pct (hexDigitChar (b / 16)) (hexDigitChar (b % 16)) (b / 16) (b % 16) l
    (hexVal?_hexDigitChar h1) (hexVal?_hexDigitChar h2)
  show pctTokens ('%' :: hexDigitChar (b / 16) :: hexDigitChar (b % 16) :: l) = _
  rw [e]
  have hb' : 16 * (b / 16) + b % 16 = b := by omega
  rw [hb']

theorem pctTokens_byteList {bs : List Nat} (hbs : ∀ b ∈ bs, b < 256) (l : List Char) :
    pctTokens ((bs.flatMap escByte) ++ l) =
      (pctTokens l).map (fun t => bs.map PctTok.byte ++ t) := by
  induction bs with
  | nil =>
    cases h : pctTokens l <;> simp [h]
  | cons b rest ih =>
    rw [List.flatMap_cons, List.append_assoc,
      pctTokens_escByte (hbs b (by simp)) _, ih (fun b' hb' => hbs b' (by simp [hb']))]
    cases h : pctTokens l <;> simp [h]

theorem pctTokens_encChar (c : Char) (l : List Char) :
    pctTokens (encChar c ++ l) = (pctTokens l).map (fun t => encToks c ++ t) := by
  by_cases hu : isUnreservedChar c = true
  · have hne : ¬ c = '%' := by
      intro h
      subst h
      exact absurd hu (by decide)
    simp only [encChar, if_pos hu, encToks, List.singleton_append,
      pctTokens_chr c l hne]
  · have hb := utf8Bytes_lt c
    simp only [encChar, if_neg hu, encToks]
    exact pctTokens_byteList hb l

theorem isContByte_of_mod (n : Nat) : isContByte (128 + n % 64) = true := by
  have : n % 64 < 64 := Nat.mod_lt _ (by norm_num)
  simp [isContByte]
  omega

theorem utf8DecodeAux_chr (c : Char) (toks : List PctTok) :
    utf8DecodeAux none (PctTok.chr c :: toks) =
      (utf8DecodeAux none toks).map (fun l => c :: l) := rfl

theorem utf8DecodeAux_ascii {b : Nat} (toks : List PctTok) (h : b < 128) :
    utf8DecodeAux none (PctTok.byte b :: toks) =
      (utf8DecodeAux none toks).map (fun l => Char.ofNat b :: l) := by
  simp only [utf8DecodeAux]
  rw [if_pos h]

theorem utf8DecodeAux_lead2 {b : Nat} (toks : List PctTok)
    (e1 : ¬ b < 128) (e2 : ¬ b < 192) (e3 : b < 224) :
    utf8DecodeAux none (PctTok.byte b :: toks) = utf8DecodeAux (some (b - 192, 1)) toks := by
  simp only [utf8DecodeAux]
  rw [if_neg e1, if_neg e2, if_pos e3]

theorem utf8DecodeAux_lead3 {b : Nat} (toks : List PctTok)
    (e1 : ¬ b < 128) (e2 : ¬ b < 192) (e3 : ¬ b < 224) (e4 : b < 240) :
    utf8DecodeAux none (PctTok.byte b :: toks) = utf8DecodeAux (some (b - 224, 2)) toks := by
  simp only [utf8DecodeAux]
  rw [if_neg e1, if_neg e2, if_neg e3, if_pos e4]

theorem utf8DecodeAux_lead4 {b : Nat} (toks : List PctTok)
    (e1 : ¬ b < 128) (e2 : ¬ b < 192) (e3 : ¬ b < 224) (e4 : ¬ b < 240) (e5 : b < 248) :
    utf8DecodeAux none (PctTok.byte b :: toks) = utf8DecodeAux (some (b - 240, 3)) toks := by
  simp only [utf8DecodeAux]
  rw [if_neg e1, if_neg e2, if_neg e3, if_neg e4, if_pos e5]

theorem utf8DecodeAux_cont_last {acc b : Nat} (toks : List PctTok)
    (hc : isContByte b = true) :
    utf8DecodeAux (some (acc, 1)) (PctTok.byte b :: toks) =
      (utf8DecodeAux none toks).map (fun l => Char.ofNat (acc * 64 + (b - 128)) :: l) := by
  simp only [utf8DecodeAux]
  rw [if_pos hc]
  simp

theorem utf8DecodeAux_cont_mid {acc n b : Nat} (toks : List PctTok)
    (hc : isContByte b = true) (hn : ¬ n = 1) :
    utf8DecodeAux (some (acc, n)) (PctTok.byte b :: toks) =
      utf8DecodeAux (some (acc * 64 + (b - 128), n - 1)) toks := by
  simp only [utf8DecodeAux]
  rw [if_pos hc, if_neg hn]

theorem utf8Decode_encToks (c : Char) (toks : List PctTok) :
    utf8Decode (encToks c ++ toks) = (utf8Decode toks).map (fun l => c :: l) := by
  show utf8DecodeAux none (encToks c ++ toks) = _
  by_cases hu : isUnreservedChar c = true
  · simp only [encToks, if_pos hu, List.singleton_append]
    exact utf8DecodeAux_chr c toks
  · simp only [encToks, if_neg hu]
    have hofn := Char.ofNat_toNat c
    have hv := char_toNat_lt c
    unfold utf8Bytes
    by_cases h1 : c.toNat < 128
    · rw [if_pos h1]
      simp only [List.map_cons, List.map_nil, List.cons_append, List.nil_append]
      rw [utf8DecodeAux_ascii toks h1]
      simp only [hofn]
      rfl
    · by_cases h2 : c.toNat < 2048
      · rw [if_neg h1, if_pos h2]
        simp only [List.map_cons, List.map_nil, List.cons_append, List.nil_append]
        rw [utf8DecodeAux_lead2 _ (by omega) (by omega) (by omega),
          utf8DecodeAux_cont_last _ (isContByte_of_mod c.toNat)]
        simp only [show (192 + c.toNat / 64 - 192) * 64 + (128 + c.toNat % 64 - 128) =
          c.toNat from by omega, hofn]
        rfl
      · by_cases h3 : c.toNat < 65536
        · rw [if_neg h1, if_neg h2, if_pos h3]
          simp only [List.map_cons, List.map_nil, List.cons_append, List.nil_append]
          rw [utf8DecodeAux_lead3 _ (by omega) (by omega) (by omega) (by omega),
            utf8DecodeAux_cont_mid _ (isContByte_of_mod (c.toNat / 64)) (by omega),
            utf8DecodeAux_cont_last _ (isContByte_of_mod c.toNat)]
          simp only [show ((224 + c.toNat / 4096 - 224) * 64 +
              (128 + c.toNat / 64 % 64 - 128)) * 64 + (128 + c.toNat % 64 - 128) =
            c.toNat from by omega, hofn]
          rfl
        · rw [if_neg h1, if_neg h2, if_neg h3]
          simp only [List.map_cons, List.map_nil, List.cons_append, List.nil_append]
          rw [utf8DecodeAux_lead4 _ (by omega) (by omega) (by omega) (by omega) (by omega),
            utf8DecodeAux_cont_mid _ (isContByte_of_mod (c.toNat / 4096)) (by omega),
            utf8DecodeAux_cont_mid _ (isContByte_of_mod (c.toNat / 64)) (by omega),
            utf8DecodeAux_cont_last _ (isContByte_of_mod c.toNat)]
          simp only [show (((240 + c.toNat / 262144 - 240) * 64 +
              (128 + c.toNat / 4096 % 64 - 128)) * 64 +
              (128 + c.toNat / 64 % 64 - 128)) * 64 + (128 + c.toNat % 64 - 128) =
            c.toNat from by omega, hofn]
          rfl



theorem decode_encode_chars (l : List Char) :
    (pctTokens (l.flatMap encChar)).bind utf8Decode = some l := by
  induction l with
  | nil => rfl
  | cons c rest ih =>
    rw [List.flatMap_cons, pctTokens_encChar]
    rcases hp : pctTokens (rest.flatMap encChar) with _ | toks
    · rw [hp] at ih
      exact absurd ih (by simp)
    · rw [hp] at ih
      have ih' : utf8Decode toks = some rest := by simpa using ih
      have hred : (Option.map (fun t => encToks c ++ t) (some toks)).bind utf8Decode =
          utf8Decode (encToks c ++ toks) := by simp
      rw [hred, utf8Decode_encToks, ih']
      rfl

/-- The decoder inverts the encoder on every string. -/
theorem decodeURIComponent_encodeURIComponent (s : String) :
    decodeURIComponent (encodeURIComponent s) = some s := by
  have h := decode_encode_chars s.data
  rcases hp : pctTokens (s.data.flatMap encChar) with _ | toks
  · rw [hp] at h
    exact absurd h (by simp)
  · rw [hp] at h
    have h' : utf8Decode toks = some s.data := by simpa using h
    show (pctTokens (s.data.flatMap encChar)).bind
      (fun toks => (utf8Decode toks).map String.mk) = some s
    rw [hp]
    show (utf8Decode toks).map String.mk = some s
    rw [h']
    rfl

/-- Every channel produced by the parser loop is a pending record closed
with some URL. -/
theorem parseM3UGo_mem (lines : List String) :
    ∀ (cur : Option (List (String × String))) (acc : List (List (String × String)))
    (ch : List (String × String)), ch ∈ parseM3UGo lines cur acc →
    ch ∈ acc ∨ ∃ p u, ch = mkChannel p u := by
  induction lines with
  | nil =>
    intro cur acc ch h
    exact Or.inl h
  | cons l rest ih =>
    intro cur acc ch h
    rw [parseM3UGo_cons] at h
    by_cases h1 : jsTrim l = ""
    · rw [if_pos h1] at h
      exact ih _ _ _ h
    · rw [if_neg h1] at h
      by_cases h2 : jsStartsWith (jsTrim l) "#EXTINF" = true
      · rw [if_pos h2] at h
        exact ih _ _ _ h
      · rw [if_neg h2] at h
        by_cases h3 : (!(jsStartsWith (jsTrim l) "#")) = true
        · rw [if_pos h3] at h
          cases cur with
          | none => exact ih _ _ _ h
          | some c =>
            rcases ih _ _ _ h with hacc | hmk
            · rcases List.mem_append.mp hacc with ha | hb
              · exact Or.inl ha
              · exact Or.inr ⟨c, jsTrim l, by simpa using hb⟩
            · exact Or.inr hmk
        · rw [if_neg h3] at h
          exact ih _ _ _ h

/-- C5: for every channel produced by `parseM3U`, the `streamUrl` is the
relay wrapping `/api/stream?url=` ++ `encodeURIComponent url`, and
URL-decoding that query-parameter value yields exactly the channel's raw
`url`. -/
theorem streamUrl_roundtrip (content : String) (ch : List (String × String))
    (h : ch ∈ parseM3U content) :
    ∃ rawUrl, mapGet ch "url" = some rawUrl ∧
      mapGet ch "streamUrl" = some ("/api/stream?url=" ++ encodeURIComponent rawUrl) ∧
      decodeURIComponent (encodeURIComponent rawUrl) = some rawUrl := by
  rcases parseM3UGo_mem (jsSplitLines content) none [] ch h with hacc | ⟨p, u, rfl⟩
  · exact absurd hacc (by simp)
  · refine ⟨u, ?_, ?_, decodeURIComponent_encodeURIComponent u⟩
    · unfold mkChannel
      rw [mapGet_mapSet_ne _ _ _ _ (by decide), mapGet_mapSet_self]
    · unfold mkChannel
      rw [mapGet_mapSet_self]

/-- Witness for C5 at a one-channel playlist. -/
theorem streamUrl_roundtrip_witness :
    ∃ rawUrl,
      mapGet [("name", "A"), ("url", "http://x/a.ts"),
        ("streamUrl", "/api/stream?url=http%3A%2F%2Fx%2Fa.ts")] "url" = some rawUrl ∧
      mapGet [("name", "A"), ("url", "http://x/a.ts"),
        ("streamUrl", "/api/stream?url=http%3A%2F%2Fx%2Fa.ts")] "streamUrl" =
        some ("/api/stream?url=" ++ encodeURIComponent rawUrl) ∧
      decodeURIComponent (encodeURIComponent rawUrl) = some rawUrl :=
  streamUrl_roundtrip "#EXTINF:-1,A\nhttp://x/a.ts"
    [("name", "A"), ("url", "http://x/a.ts"),
      ("streamUrl", "/api/stream?url=http%3A%2F%2Fx%2Fa.ts")] (by decide)

/-! ## Claim C6: shape of collectUrls matches -/

theorem ciStrip_spec : ∀ (pat l m r : List Char), ciStrip pat l = some (m, r) →
    l = m ++ r ∧ m.map lowerChar = pat := by
  intro pat
  induction pat with
  | nil =>
    intro l m r h
    simp only [ciStrip, Option.some.injEq, Prod.mk.injEq] at h
    obtain ⟨rfl, rfl⟩ := h
    exact ⟨rfl, rfl⟩
  | cons p ps ih =>
    intro l m r h
    cases l with
    | nil => exact absurd h (by simp [ciStrip])
    | cons c cs =>
      simp only [ciStrip] at h
      by_cases hlc : lowerChar c = p
      · rw [if_pos hlc] at h
        rcases hcs : ciStrip ps cs with _ | mr
        · rw [hcs] at h
          exact absurd h (by simp)
        · rw [hcs] at h
          simp only [Option.map_some', Option.some.injEq, Prod.mk.injEq] at h
          obtain ⟨rfl, rfl⟩ := h
          rcases ih cs mr.1 mr.2 (by rw [hcs]) with ⟨hsplit, hmap⟩
          exact ⟨by simp [hsplit], by simp [hmap, hlc]⟩
      · rw [if_neg hlc] at h
        exact absurd h (by simp)

theorem matchScheme_spec (l m r : List Char) (h : matchScheme l = some (m, r)) :
    l = m ++ r ∧
      (m.map lowerChar = ("https://").data ∨ m.map lowerChar = ("http://").data) := by
  unfold matchScheme at h
  rcases h1 : ciStrip ("https://").data l with _ | mr
  · rw [h1] at h
    rcases ciStrip_spec _ _ _ _ h with ⟨hs, hm⟩
    exact ⟨hs, Or.inr hm⟩
  · rw [h1] at h
    simp only [Option.some.injEq] at h
    subst h
    rcases ciStrip_spec _ _ _ _ h1 with ⟨hs, hm⟩
    exact ⟨hs, Or.inl hm⟩

theorem tryExtAux_spec : ∀ (ps : List (List Char)) (l e r : List Char),
    tryExtAux ps l = some (e, r) →
    l = e ++ r ∧ ∃ x ∈ ps, e.map lowerChar = x := by
  intro ps
  induction ps with
  | nil =>
    intro l e r h
    exact absurd h (by simp [tryExtAux])
  | cons p rest ih =>
    intro l e r h
    simp only [tryExtAux] at h
    rcases h1 : ciStrip p l with _ | mr
    · rw [h1] at h
      rcases ih l e r h with ⟨hs, x, hx, hm⟩
      exact ⟨hs, x, by simp [hx], hm⟩
    · rw [h1] at h
      simp only [Option.some.injEq] at h
      subst h
      rcases ciStrip_spec _ _ _ _ h1 with ⟨hs, hm⟩
      exact ⟨hs, p, by simp, hm⟩

theorem tryExt_spec (l e r : List Char) (h : tryExt l = some (e, r)) :
    l = e ++ r ∧ ∃ x ∈ mediaExtsData, e.map lowerChar = x :=
  tryExtAux_spec mediaExtsData l e r h

theorem lazyScan_spec : ∀ (l m e r : List Char), lazyScan l = some (m, e, r) →
    l = m ++ e ++ r ∧ (∀ c ∈ m, isUrlChar c = true) ∧
      ∃ x ∈ mediaExtsData, e.map lowerChar = x := by
  intro l
  induction l with
  | nil =>
    intro m e r h
    exact absurd h (by simp [lazyScan])
  | cons c rest ih =>
    intro m e r h
    simp only [lazyScan] at h
    by_cases hc : isUrlChar c = true
    · rw [if_pos hc] at h
      rcases htry : tryExt rest with _ | er
      · rw [htry] at h
        rcases hls : lazyScan rest with _ | mer
        · rw [hls] at h
          exact absurd h (by simp)
        · rw [hls] at h
          simp only [Option.map_some', Option.some.injEq, Prod.mk.injEq] at h
          obtain ⟨rfl, rfl, rfl⟩ := h
          rcases ih mer.1 mer.2.1 mer.2.2 (by rw [hls]) with ⟨hsplit, hmid, hext⟩
          refine ⟨by simp [hsplit], ?_, hext⟩
          intro d hd
          rcases List.mem_cons.mp hd with rfl | hd'
          · exact hc
          · exact hmid d hd'
      · rw [htry] at h
        simp only [Option.some.injEq, Prod.mk.injEq] at h
        obtain ⟨rfl, rfl, rfl⟩ := h
        rcases tryExt_spec _ _ _ htry with ⟨hsplit, hext⟩
        refine ⟨by simp [hsplit], ?_, hext⟩
        intro d hd
        rcases List.mem_cons.mp hd with rfl | hd'
        · exact hc
        · exact absurd hd' (by simp)
    · rw [if_neg hc] at h
      exact absurd h (by simp)

theorem matchAt_spec (l m r : List Char) (h : matchAt l = some (m, r)) :
    ∃ sch mid ext tail, m = sch ++ mid ++ ext ++ tail ∧
      (sch.map lowerChar = ("https://").data ∨ sch.map lowerChar = ("http://").data) ∧
      (∀ c ∈ mid, isUrlChar c = true) ∧ (∀ c ∈ tail, isUrlChar c = true) ∧
      ∃ x ∈ mediaExtsData, ext.map lowerChar = x := by
  unfold matchAt at h
  rcases hs : matchScheme l with _ | sr
  · rw [hs] at h
    exact absurd h (by simp)
  · rw [hs] at h
    simp only [] at h
    rcases hl : lazyScan sr.2 with _ | mer
    · rw [hl] at h
      exact absurd h (by simp)
    · rw [hl] at h
      simp only [Option.some.injEq, Prod.mk.injEq] at h
      obtain ⟨rfl, rfl⟩ := h
      rcases matchScheme_spec l sr.1 sr.2 (by rw [hs]) with ⟨_, hschemes⟩
      rcases lazyScan_spec sr.2 mer.1 mer.2.1 mer.2.2 (by rw [hl]) with ⟨_, hmid, hext⟩
      exact ⟨sr.1, mer.1, mer.2.1, mer.2.2.takeWhile isUrlChar, rfl, hschemes, hmid,
        fun c hc => List.mem_takeWhile_imp hc, hext⟩

theorem scanAll_mem : ∀ (fuel : Nat) (l : List Char) (u : String), u ∈ scanAll fuel l →
    ∃ l' m r, matchAt l' = some (m, r) ∧ u = String.mk m := by
  intro fuel
  induction fuel with
  | zero =>
    intro l u h
    exact absurd h (by simp [scanAll])
  | succ n ih =>
    intro l u h
    cases l with
    | nil => exact absurd h (by simp [scanAll])
    | cons c rest =>
      simp only [scanAll] at h
      rcases hm : matchAt (c :: rest) with _ | mr
      · rw [hm] at h
        exact ih rest u h
      · rw [hm] at h
        rcases List.mem_cons.mp h with rfl | h'
        · exact ⟨c :: rest, mr.1, mr.2, by rw [hm], rfl⟩
        · exact ih mr.2 u h'

theorem mem_dedup_foldl (l : List String) : ∀ (acc : List String) (u : String),
    u ∈ l.foldl (fun acc s => if s ∈ acc then acc else acc ++ [s]) acc →
    u ∈ acc ∨ u ∈ l := by
  induction l with
  | nil =>
    intro acc u h
    exact Or.inl h
  | cons s rest ih =>
    intro acc u h
    rw [List.foldl_cons] at h
    rcases ih _ u h with hacc | hrest
    · by_cases hs : s ∈ acc
      · rw [if_pos hs] at hacc
        exact Or.inl hacc
      · rw [if_neg hs] at hacc
        rcases List.mem_append.mp hacc with ha | hb
        · exact Or.inl ha
        · simp only [List.mem_singleton] at hb
          subst hb
          exact Or.inr (by simp)
    · exact Or.inr (by simp [hrest])

theorem dedupKeepFirst_subset (l : List String) (u : String)
    (h : u ∈ dedupKeepFirst l) : u ∈ l := by
  rcases mem_dedup_foldl l [] u h with h0 | h0
  · exact absurd h0 (by simp)
  · exact h0

theorem isUrlChar_false_iff (c : Char) : isUrlChar c = false ↔
    c ∈ [' ', '\t', '\n', '\r', Char.ofNat 11, Char.ofNat 12, quoteChar, aposChar,
      '<', '>'] := by
  simp [isUrlChar, isJsSpace, or_assoc]
  tauto

theorem isUrlChar_of_upper {c : Char} (h1 : 'A' ≤ c) (h2 : c ≤ 'Z') :
    isUrlChar c = true := by
  by_contra hc
  have hf : isUrlChar c = false := by simpa using hc
  have hmem := (isUrlChar_false_iff c).mp hf
  fin_cases hmem <;> revert h1 h2 <;> decide

theorem lowerChar_eq_of_not_url {c : Char} (h : ¬ isUrlChar c = true) :
    lowerChar c = c := by
  unfold lowerChar
  rw [if_neg (fun hab => h (isUrlChar_of_upper hab.1 hab.2))]

theorem isUrlChar_of_lower {c p : Char} (hl : lowerChar c = p)
    (hp : isUrlChar p = true) : isUrlChar c = true := by
  by_cases hc : isUrlChar c = true
  · exact hc
  · rw [lowerChar_eq_of_not_url hc] at hl
    subst hl
    exact hp

theorem all_url_of_map_lower {m pat : List Char} (hm : m.map lowerChar = pat)
    (hp : ∀ p ∈ pat, isUrlChar p = true) : ∀ c ∈ m, isUrlChar c = true := by
  intro c hc
  have hmem : lowerChar c ∈ pat := hm ▸ List.mem_map_of_mem lowerChar hc
  exact isUrlChar_of_lower rfl (hp _ hmem)

theorem scheme_chars_url_s : ∀ p ∈ ("https://").data, isUrlChar p = true := by decide

theorem scheme_chars_url : ∀ p ∈ ("http://").data, isUrlChar p = true := by decide

theorem ext_chars_url : ∀ x ∈ mediaExtsData, ∀ p ∈ x, isUrlChar p = true := by decide

/-- C6 (amended): every string extracted by `collectUrls` begins with
`http://` or `https://` case-insensitively, contains no whitespace, quote,
apostrophe, or angle-bracket character, and contains (case-insensitively)
one of the extensions `m3u8, m3u, mp4, mov, mkv, avi, flv, mpd, webm, ts` —
but it need not end with the extension: the regex's trailing `[^\s"'<>]*`
lets an arbitrary run of permitted characters (e.g. a query string) follow
the extension. -/
theorem collectUrls_shape (t u : String) (h : u ∈ collectUrls t) :
    ((u.data.take 7).map lowerChar = ("http://").data ∨
      (u.data.take 8).map lowerChar = ("https://").data) ∧
    (∀ c ∈ u.data, isUrlChar c = true) ∧
    ∃ x ∈ mediaExtsData, List.IsInfix x (u.data.map lowerChar) := by
  have hin : u ∈ scanAll (t.data.length + 1) t.data := by
    unfold collectUrls at h
    by_cases ht : t = ""
    · rw [if_pos ht] at h
      exact absurd h (by simp)
    · rw [if_neg ht] at h
      exact dedupKeepFirst_subset _ _ h
  rcases scanAll_mem _ _ _ hin with ⟨l', m, r, hm, rfl⟩
  rcases matchAt_spec _ _ _ hm with
    ⟨sch, mid, ext, tail, rfl, hsch, hmid, htail, x, hx, hext⟩
  refine ⟨?_, ?_, ?_⟩
  · rcases hsch with hs | hs
    · right
      have hlen : sch.length = 8 := by
        have hl8 := congrArg List.length hs
        simpa using hl8
      show ((sch ++ mid ++ ext ++ tail).take 8).map lowerChar = _
      rw [List.append_assoc, List.append_assoc, List.take_left' hlen, hs]
    · left
      have hlen : sch.length = 7 := by
        have hl7 := congrArg List.length hs
        simpa using hl7
      show ((sch ++ mid ++ ext ++ tail).take 7).map lowerChar = _
      rw [List.append_assoc, List.append_assoc, List.take_left' hlen, hs]
  · intro c hc
    have hgood : ∀ d ∈ sch, isUrlChar d = true := by
      rcases hsch with hs | hs
      · exact all_url_of_map_lower hs scheme_chars_url_s
      · exact all_url_of_map_lower hs scheme_chars_url
    have hextc : ∀ d ∈ ext, isUrlChar d = true :=
      all_url_of_map_lower hext (ext_chars_url x hx)
    rcases List.mem_append.mp hc with h3 | h4
    · rcases List.mem_append.mp h3 with h5 | h6
      · rcases List.mem_append.mp h5 with h7 | h8
        · exact hgood c h7
        · exact hmid c h8
      · exact hextc c h6
    · exact htail c h4
  · refine ⟨x, hx, sch.map lowerChar ++ mid.map lowerChar, tail.map lowerChar, ?_⟩
    show _ ++ x ++ _ = (sch ++ mid ++ ext ++ tail).map lowerChar
    rw [← hext]
    simp [List.map_append, List.append_assoc]

/-- Witness for C6: a URL with a query string after the extension. -/
theorem collectUrls_shape_witness :
    ((("http://a.com/v.mp4?q=1" : String).data.take 7).map lowerChar =
        ("http://").data ∨
      (("http://a.com/v.mp4?q=1" : String).data.take 8).map lowerChar =
        ("https://").data) ∧
    (∀ c ∈ ("http://a.com/v.mp4?q=1" : String).data, isUrlChar c = true) ∧
    ∃ x ∈ mediaExtsData,
      List.IsInfix x (("http://a.com/v.mp4?q=1" : String).data.map lowerChar) :=
  collectUrls_shape "see http://a.com/v.mp4?q=1 ok" "http://a.com/v.mp4?q=1" (by decide)

/-- Counterexample to C6 as stated: the extracted string
`http://a.com/v.mp4?q=1` keeps the query string after the `mp4` extension,
so it does not end in any of the listed extensions. -/
theorem collectUrls_trailing_run :
    collectUrls "http://a.com/v.mp4?q=1" = ["http://a.com/v.mp4?q=1"] ∧
    ∀ x ∈ mediaExtsData,
      ¬ List.IsSuffix x (("http://a.com/v.mp4?q=1" : String).data.map lowerChar) :=
  ⟨by decide, by decide⟩

/-! ## Claim C1: manifest rewriting preserves line structure -/

theorem data_append (a b : String) : (a ++ b).data = a.data ++ b.data := rfl

theorem splitOnChar_ne_nil (sep : Char) (l : List Char) : splitOnChar sep l ≠ [] := by
  induction l with
  | nil => simp [splitOnChar]
  | cons c rest ih =>
    by_cases hc : c = sep
    · simp [splitOnChar, hc]
    · simp only [splitOnChar, if_neg hc]
      rcases h : splitOnChar sep rest with _ | ⟨h0, t0⟩
      · simp
      · simp

theorem mem_splitOnChar (sep : Char) : ∀ (l p : List Char),
    p ∈ splitOnChar sep l → sep ∉ p := by
  intro l
  induction l with
  | nil =>
    intro p hp
    simp only [splitOnChar, List.mem_singleton] at hp
    subst hp
    simp
  | cons c rest ih =>
    intro p hp
    by_cases hc : c = sep
    · rw [show splitOnChar sep (c :: rest) = [] :: splitOnChar sep rest from by
        simp [splitOnChar, hc]] at hp
      rcases List.mem_cons.mp hp with rfl | hp'
      · simp
      · exact ih p hp'
    · simp only [splitOnChar, if_neg hc] at hp
      rcases hsr : splitOnChar sep rest with _ | ⟨h0, t0⟩
      · exact absurd hsr (splitOnChar_ne_nil sep rest)
      · rw [hsr] at hp
        rcases List.mem_cons.mp hp with rfl | hp'
        · intro hmem
          rcases List.mem_cons.mp hmem with h1 | h1
          · exact hc h1.symm
          · exact ih h0 (by rw [hsr]; simp) h1
        · exact ih p (by rw [hsr]; simp [hp'])

theorem split_joinWith (sep : Char) : ∀ (ps : List (List Char)), ps ≠ [] →
    (∀ p ∈ ps, sep ∉ p) → splitOnChar sep (joinWith [sep] ps) = ps := by
  intro ps
  induction ps with
  | nil => intro h; exact absurd rfl h
  | cons p rest ih =>
    intro _ hok
    cases rest with
    | nil =>
      show splitOnChar sep p = [p]
      exact splitOnChar_no_sep sep p
        (fun c hc hcs => (hok p (by simp)) (hcs ▸ hc))
    | cons q rest2 =>
      have hjoin : joinWith [sep] (p :: q :: rest2) =
          p ++ sep :: joinWith [sep] (q :: rest2) := by
        show p ++ [sep] ++ joinWith [sep] (q :: rest2) = _
        simp
      rw [hjoin, splitOnChar_append_sep sep p _
        (fun c hc hcs => (hok p (by simp)) (hcs ▸ hc))]
      rw [ih (by simp) (fun r hr => hok r (by simp [hr]))]

theorem dropTrailingCR_eq (l : List Char) (h : ¬ l.getLast? = some '\r') :
    dropTrailingCR l = l := by
  unfold dropTrailingCR
  rw [if_neg h]

theorem dropTrailingCR_subset (p : List Char) : ∀ c ∈ dropTrailingCR p, c ∈ p := by
  intro c hc
  unfold dropTrailingCR at hc
  by_cases hg : p.getLast? = some '\r'
  · rw [if_pos hg] at hc
    exact (List.dropLast_sublist p).subset hc
  · rw [if_neg hg] at hc
    exact hc

theorem jsSplitLines_no_nl (s : String) : ∀ l ∈ jsSplitLines s, '\n' ∉ l.data := by
  intro l hl
  rcases List.mem_map.mp hl with ⟨p, hp, rfl⟩
  intro hc
  exact mem_splitOnChar '\n' s.data p hp (dropTrailingCR_subset p _ hc)

theorem trimChars_subset (l : List Char) : ∀ c ∈ trimChars l, c ∈ l := by
  intro c hc
  unfold trimChars at hc
  rw [List.mem_reverse] at hc
  have h1 : c ∈ (l.dropWhile isJsSpace).reverse :=
    (List.dropWhile_sublist _).subset hc
  rw [List.mem_reverse] at h1
  exact (List.dropWhile_sublist _).subset h1

theorem head?_dropWhile_not (p : Char → Bool) : ∀ (l : List Char) (c : Char),
    (l.dropWhile p).head? = some c → p c = false := by
  intro l
  induction l with
  | nil =>
    intro c h
    simp at h
  | cons a rest ih =>
    intro c h
    rw [List.dropWhile_cons] at h
    by_cases hp : p a = true
    · rw [if_pos hp] at h
      exact ih c h
    · rw [if_neg hp] at h
      simp only [List.head?_cons, Option.some.injEq] at h
      subst h
      simpa using hp

theorem trimChars_getLast (l : List Char) (c : Char)
    (h : (trimChars l).getLast? = some c) : isJsSpace c = false := by
  unfold trimChars at h
  rw [List.getLast?_reverse] at h
  exact head?_dropWhile_not isJsSpace _ c h

theorem getLast?_mem_local : ∀ {l : List Char} {c : Char}, l.getLast? = some c → c ∈ l := by
  intro l
  induction l with
  | nil =>
    intro c h
    simp at h
  | cons a rest ih =>
    intro c h
    cases rest with
    | nil =>
      simp only [List.getLast?_singleton, Option.some.injEq] at h
      simp [h]
    | cons b bs =>
      rw [List.getLast?_cons_cons] at h
      exact List.mem_cons_of_mem _ (ih h)

theorem hexDigitChar_ne_nl {n : Nat} (h : n < 16) :
    ¬ hexDigitChar n = '\n' ∧ ¬ hexDigitChar n = '\r' := by
  interval_cases n <;> exact ⟨by decide, by decide⟩

theorem encChar_ne (c : Char) : ∀ d ∈ encChar c, ¬ d = '\n' ∧ ¬ d = '\r' := by
  intro d hd
  unfold encChar at hd
  by_cases hu : isUnreservedChar c = true
  · rw [if_pos hu] at hd
    simp only [List.mem_singleton] at hd
    subst hd
    constructor
    · intro h
      rw [h] at hu
      exact absurd hu (by decide)
    · intro h
      rw [h] at hu
      exact absurd hu (by decide)
  · rw [if_neg hu] at hd
    rcases List.mem_flatMap.mp hd with ⟨b, hb, hdb⟩
    have hblt := utf8Bytes_lt c b hb
    unfold escByte at hdb
    rcases List.mem_cons.mp hdb with rfl | hdb'
    · exact ⟨by decide, by decide⟩
    · rcases List.mem_cons.mp hdb' with rfl | hdb''
      · exact hexDigitChar_ne_nl (by omega)
      · rcases List.mem_cons.mp hdb'' with rfl | h0
        · exact hexDigitChar_ne_nl (by omega)
        · exact absurd h0 (by simp)

theorem rewriteLine_chars (sourceUrl l : String) (hl : '\n' ∉ l.data) :
    '\n' ∉ (rewriteLine sourceUrl l).data ∧
      ¬ (rewriteLine sourceUrl l).data.getLast? = some '\r' := by
  have hstep : rewriteLine sourceUrl l =
      if (decide (jsTrim l = "") || jsStartsWith (jsTrim l) "#" ||
        jsStartsWith (jsTrim l) "DATA:") = true then jsTrim l
      else "/api/stream?url=" ++ encodeURIComponent (resolveUrl sourceUrl (jsTrim l)) := rfl
  rw [hstep]
  split
  · constructor
    · intro hc
      exact hl (trimChars_subset l.data _ hc)
    · intro hc
      have hsp := trimChars_getLast l.data '\r' hc
      exact absurd hsp (by decide)
  · have hall : ∀ d ∈ ("/api/stream?url=" ++
        encodeURIComponent (resolveUrl sourceUrl (jsTrim l))).data,
        ¬ d = '\n' ∧ ¬ d = '\r' := by
      intro d hd
      rw [data_append] at hd
      rcases List.mem_append.mp hd with hp | hs
      · have hpre : ∀ d ∈ ("/api/stream?url=").data, ¬ d = '\n' ∧ ¬ d = '\r' := by
          decide
        exact hpre d hp
      · rcases List.mem_flatMap.mp hs with ⟨c0, _, hd0⟩
        exact encChar_ne c0 d hd0
    constructor
    · intro hc
      exact (hall _ hc).1 rfl
    · intro hc
      exact (hall _ (getLast?_mem_local hc)).2 rfl

theorem jsSplitLines_joinLines (ls : List String) (hne : ¬ ls = [])
    (hok : ∀ s ∈ ls, '\n' ∉ s.data ∧ ¬ s.data.getLast? = some '\r') :
    jsSplitLines (joinLines ls) = ls := by
  unfold jsSplitLines joinLines
  rw [show (String.mk (joinWith ['\n'] (ls.map String.data))).data =
    joinWith ['\n'] (ls.map String.data) from rfl]
  rw [split_joinWith '\n' (ls.map String.data) (by simpa using hne)
    (fun p hp => by
      rcases List.mem_map.mp hp with ⟨s, hs, rfl⟩
      exact (hok s hs).1)]
  rw [List.map_map]
  have hid : ∀ s ∈ ls, ((fun p => String.mk (dropTrailingCR p)) ∘ String.data) s = s := by
    intro s hs
    show String.mk (dropTrailingCR s.data) = s
    rw [dropTrailingCR_eq _ ((hok s hs).2)]
  rw [List.map_congr_left hid]
  simp

/-- C1 (amended): `rewriteManifestWithProxy` preserves the number and order
of lines exactly; each line that after trimming is empty, begins with `#`,
or begins with `DATA:` is passed through **trimmed** (not verbatim —
surrounding whitespace is removed), and every other line is replaced by
`/api/stream?url=` followed by the percent-encoding of the trimmed line
resolved as a URL against the source URL (`resolveUrl` models the WHATWG
resolution: absolute references pass through, relative references join the
manifest's scheme/host/path). -/
theorem rewriteManifest_linewise (body sourceUrl : String) :
    jsSplitLines (rewriteManifestWithProxy body sourceUrl) =
      (jsSplitLines body).map (rewriteLine sourceUrl) ∧
    (jsSplitLines (rewriteManifestWithProxy body sourceUrl)).length =
      (jsSplitLines body).length := by
  have hmap : jsSplitLines (rewriteManifestWithProxy body sourceUrl) =
      (jsSplitLines body).map (rewriteLine sourceUrl) := by
    unfold rewriteManifestWithProxy
    apply jsSplitLines_joinLines
    · intro hempty
      have h0 := congrArg List.length hempty
      simp [jsSplitLines] at h0
      exact splitOnChar_ne_nil '\n' body.data h0
    · intro s hs
      rcases List.mem_map.mp hs with ⟨l0, hl0, rfl⟩
      exact rewriteLine_chars sourceUrl l0 (jsSplitLines_no_nl body l0 hl0)
  exact ⟨hmap, by rw [hmap, List.length_map]⟩

/-- Counterexample to C1 as stated: a comment line with leading whitespace
is returned trimmed, not verbatim. -/
theorem rewriteManifest_not_verbatim :
    rewriteManifestWithProxy " #EXTM3U" "http://h/x.m3u8" = "#EXTM3U" ∧
    ¬ ("#EXTM3U" : String) = " #EXTM3U" :=
  ⟨by decide, by decide⟩

end IPTV
